import Mathlib

/-!
Verification of the boundary-aware text chunker of `app/ingestion/chunk.py`.

Text is modelled as `List Char`, indexed by character offset, exactly as the
Python code indexes `str`.  Python integer arithmetic on offsets is `Nat`
arithmetic here (no offset in the chunker ever usefully goes negative; where
Python would produce a negative intermediate value the surrounding guards give
the same observable behaviour, noted at each spot).  The float constants
`0.5`, `1.5` are exact in binary floating point, so `int(x * 0.5)` is floor
division by 2 and `int(x * 1.5)` is `3*x/2`; the heuristic thresholds
`int(chunk_size * 0.35)` and `int(chunk_size * 0.7)` are modelled as exact
floor divisions `35*cs/100` and `7*cs/10` (the tiny float rounding of 0.35/0.7
only shifts a tuning threshold, and every theorem below covers both branches
of those comparisons).  The tiktoken token counter is an external oracle,
modelled as a parameter `tok : List Char → Option Nat`, where `none` models
the oracle raising an exception; a raised exception propagates, so functions
that call it return `Option` results with `none` for "a Python exception
escaped".  Upward-scanning recursions carry explicit fuel; the fuel chosen by
each wrapper (`length + 1`) dominates the scan, which advances at least one
position per step, and fuel exhaustion yields the error/empty value.
-/

namespace Chunking

abbrev Text := List Char

/-- The backtick character (0x60). -/
def backquote : Char := Char.ofNat 96

/-- Python whitespace for `str.strip` / regex `\s` on ASCII input. -/
def isSpaceChar (c : Char) : Bool :=
  c == ' ' || c == '\t' || c == '\n' || c == '\r' || c == Char.ofNat 11 || c == Char.ofNat 12

/-- `text[i]`; out-of-range reads never occur on the paths the code takes,
the default is a NUL character. -/
def charAt (t : Text) (i : Nat) : Char := t.getD i (Char.ofNat 0)

/-- Python slice `text[a:b]` (clamped, empty when `b ≤ a`). -/
def slice (t : Text) (a b : Nat) : Text := (t.drop a).take (b - a)

/-- Python `str.strip()`. -/
def stripL (l : Text) : Text :=
  ((l.dropWhile isSpaceChar).reverse.dropWhile isSpaceChar).reverse

/-- `_get_protected_range_at(position, protected_ranges)`: first range
containing `position`, with the early exit once `start > position`. -/
def getProtectedRangeAt (position : Nat) : List (Nat × Nat) → Option (Nat × Nat)
  | [] => none
  | (s, e) :: rest =>
    if s ≤ position ∧ position < e then some (s, e)
    else if position < s then none
    else getProtectedRangeAt position rest

/-- The break-type classification of one candidate offset `i` in
`_find_break_point`'s backward scan: `some (priority, break_pos)`. -/
def classify (t : Text) (i : Nat) : Option (Nat × Nat) :=
  if i < t.length - 1 ∧ slice t i (i + 2) = ['\n', '\n'] then some (1, i + 2)
  else if 0 < i ∧ (charAt t (i - 1) = '.' ∨ charAt t (i - 1) = '!' ∨ charAt t (i - 1) = '?')
      ∧ (charAt t i = ' ' ∨ charAt t i = '\n') then some (2, i + 1)
  else if charAt t i = '\n' then some (3, i + 1)
  else if charAt t i = ' ' then some (4, i + 1)
  else none

/-- The backward scan `for i in range(max_end, search_start, -1)` of
`_find_break_point`, tracking `best_break`/`best_priority`, with the early
exit on priority ≤ 2. -/
def scanLoop (t : Text) (spans : List (Nat × Nat)) (searchStart : Nat) :
    Nat → Option Nat → Nat → Option Nat
  | 0, best, _ => best
  | i + 1, best, bestPrio =>
    if i + 1 ≤ searchStart then best
    else if (getProtectedRangeAt (i + 1) spans).isSome then
      scanLoop t spans searchStart i best bestPrio
    else
      match classify t (i + 1) with
      | none => scanLoop t spans searchStart i best bestPrio
      | some (prio, pos) =>
        if (getProtectedRangeAt (pos - 1) spans).isSome then
          scanLoop t spans searchStart i best bestPrio
        else if prio < bestPrio then
          if prio ≤ 2 then some pos
          else scanLoop t spans searchStart i (some pos) prio
        else scanLoop t spans searchStart i best bestPrio

/-- The fallback `for i in range(max_end, start, -1): if text[i] == ' ' and
not protected: return i + 1`. -/
def fallbackScan (t : Text) (spans : List (Nat × Nat)) (start : Nat) :
    Nat → Option Nat
  | 0 => none
  | i + 1 =>
    if i + 1 ≤ start then none
    else if charAt t (i + 1) = ' ' ∧ (getProtectedRangeAt (i + 1) spans).isNone then some (i + 2)
    else fallbackScan t spans start i

/-- The last-resort linear search `for range_start, range_end in
protected_ranges: if range_start <= max_end - 1 < range_end: return range_end`. -/
def protectedEndAt (pos : Nat) : List (Nat × Nat) → Option Nat
  | [] => none
  | (rs, re) :: rest => if rs ≤ pos ∧ pos < re then some re else protectedEndAt pos rest

/-- Lines 119–178 of `_find_break_point`: everything after the protected-span
clipping, with `ceil` the (possibly clipped) `max_end`. -/
def searchAfterClip (t : Text) (start ceil : Nat) (spans : List (Nat × Nat)) : Nat :=
  let searchStart := start + (ceil - start) / 2
  match scanLoop t spans searchStart ceil none 100 with
  | some b => b
  | none =>
    match fallbackScan t spans start ceil with
    | some b => b
    | none =>
      if (getProtectedRangeAt (ceil - 1) spans).isSome then
        match protectedEndAt (ceil - 1) spans with
        | some re => re
        | none => ceil
      else ceil

/-- `_find_break_point(text, start, max_end, protected_ranges)`. -/
def findBreakPoint (t : Text) (start maxEnd : Nat) (spans : List (Nat × Nat)) : Nat :=
  if maxEnd ≥ t.length then t.length
  else
    match getProtectedRangeAt maxEnd spans with
    | some (s, e) => if s ≤ start then e else searchAfterClip t start s spans
    | none => searchAfterClip t start maxEnd spans

/-! ### Protected-range detection (`_find_protected_ranges`)

Each regex of the source is implemented as an explicit scanner with Python
`re.finditer` semantics: leftmost match, resume at the match end.          -/

/-- End of the maximal run of characters satisfying `p`, starting at `k`. -/
def runEndGo (p : Char → Bool) (t : Text) : Nat → Nat → Nat
  | 0, k => k
  | fuel + 1, k => if k < t.length ∧ p (charAt t k) then runEndGo p t fuel (k + 1) else k

def runEnd (p : Char → Bool) (t : Text) (k : Nat) : Nat := runEndGo p t (t.length + 1) k

/-- Is there a triple backtick at offset `i`? -/
def tripleAt (t : Text) (i : Nat) : Bool :=
  slice t i (i + 3) == [backquote, backquote, backquote]

/-- Smallest `j' ≥ j` carrying a closing triple backtick (the non-greedy
`[\s\S]*?` of `CODE_BLOCK_PATTERN`). -/
def findCloseFromGo (t : Text) : Nat → Nat → Option Nat
  | 0, _ => none
  | fuel + 1, j =>
    if j + 3 ≤ t.length then
      if tripleAt t j then some j else findCloseFromGo t fuel (j + 1)
    else none

def findCloseFrom (t : Text) (j : Nat) : Option Nat := findCloseFromGo t (t.length + 1) j

/-- Scanner for `CODE_BLOCK_PATTERN`. -/
def codeBlockGo (t : Text) : Nat → Nat → List (Nat × Nat)
  | 0, _ => []
  | fuel + 1, i =>
    if i < t.length then
      if tripleAt t i then
        match findCloseFrom t (i + 3) with
        | some j => (i, j + 3) :: codeBlockGo t fuel (j + 3)
        | none => codeBlockGo t fuel (i + 1)
      else codeBlockGo t fuel (i + 1)
    else []

def codeBlockMatches (t : Text) : List (Nat × Nat) := codeBlockGo t (t.length + 1) 0

/-- Scanner for `INLINE_CODE_PATTERN` (a backtick, one or more characters that
are neither backtick nor newline, a backtick). -/
def inlineGo (t : Text) : Nat → Nat → List (Nat × Nat)
  | 0, _ => []
  | fuel + 1, i =>
    if i < t.length then
      if charAt t i == backquote then
        let k := runEnd (fun c => c != backquote && c != '\n') t (i + 1)
        if i + 1 < k ∧ k < t.length ∧ charAt t k = backquote then
          (i, k + 1) :: inlineGo t fuel (k + 1)
        else inlineGo t fuel (i + 1)
      else inlineGo t fuel (i + 1)
    else []

def inlineCodeMatches (t : Text) : List (Nat × Nat) := inlineGo t (t.length + 1) 0

/-- `https?://` at offset `i`; returns the offset just past `://`. -/
def schemeEndAt (t : Text) (i : Nat) : Option Nat :=
  if slice t i (i + 7) = ("http://".toList) then some (i + 7)
  else if slice t i (i + 8) = ("https://".toList) then some (i + 8)
  else none

/-- Characters allowed in a bare URL body: `[^\s<>\[\]()]`. -/
def urlBodyChar (c : Char) : Bool :=
  !(isSpaceChar c) && c != '<' && c != '>' && c != '[' && c != ']' && c != '(' && c != ')'

/-- Scanner for `URL_PATTERN` (bare `https?://…` first, else the Slack form
`<https?://…>` or `<https?://…|label>`). -/
def urlGo (t : Text) : Nat → Nat → List (Nat × Nat)
  | 0, _ => []
  | fuel + 1, i =>
    if i < t.length then
      match schemeEndAt t i with
      | some p =>
        let e := runEnd urlBodyChar t p
        if p < e then (i, e) :: urlGo t fuel e else urlGo t fuel (i + 1)
      | none =>
        if charAt t i == '<' then
          match schemeEndAt t (i + 1) with
          | some p =>
            let e1 := runEnd (fun c => c != '>' && c != '|') t p
            if p < e1 then
              if e1 < t.length ∧ charAt t e1 = '>' then (i, e1 + 1) :: urlGo t fuel (e1 + 1)
              else if e1 < t.length ∧ charAt t e1 = '|' then
                let e2 := runEnd (fun c => c != '>') t (e1 + 1)
                if e1 + 1 < e2 ∧ e2 < t.length ∧ charAt t e2 = '>' then
                  (i, e2 + 1) :: urlGo t fuel (e2 + 1)
                else urlGo t fuel (i + 1)
              else urlGo t fuel (i + 1)
            else urlGo t fuel (i + 1)
          | none => urlGo t fuel (i + 1)
        else urlGo t fuel (i + 1)
    else []

def urlMatches (t : Text) : List (Nat × Nat) := urlGo t (t.length + 1) 0

def isBullet (c : Char) : Bool := c == '-' || c == '*' || c == '•'

/-- A position where multiline `^` matches. -/
def lineStart (t : Text) (i : Nat) : Bool := i == 0 || charAt t (i - 1) == '\n'

/-- Largest `s` with `low ≤ s ≤ s0` whose character is not a newline
(the backtracking of `\s+` when `.+` finds nothing at the greedy split). -/
def backtrackNonNl (t : Text) (low : Nat) : Nat → Option Nat
  | 0 => if low = 0 ∧ charAt t 0 ≠ '\n' then some 0 else none
  | s + 1 =>
    if s + 1 < low then none
    else if charAt t (s + 1) ≠ '\n' then some (s + 1)
    else backtrackNonNl t low s

/-- Attempt of `LIST_ITEM_PATTERN` = `^[\s]*[-*•]\s+.+$` (MULTILINE) at line
start `L`: greedy `[\s]*`, a bullet, greedy `\s+`, then `.+` up to the line
end, with the regex backtracking of the `\s+`/`.+` split when the whitespace
run reaches end of text.  Returns the match end. -/
def listMatchAt (t : Text) (L : Nat) : Option Nat :=
  let w := runEnd isSpaceChar t L
  if w < t.length ∧ isBullet (charAt t w) then
    let p := w + 1
    let q := runEnd isSpaceChar t p
    if q = p then none
    else if q < t.length then some (runEnd (fun c => c != '\n') t q)
    else
      match backtrackNonNl t (p + 1) (q - 1) with
      | some s => some (runEnd (fun c => c != '\n') t s)
      | none => none
  else none

/-- Scanner for `LIST_ITEM_PATTERN`: attempts only at line starts. -/
def listGo (t : Text) : Nat → Nat → List (Nat × Nat)
  | 0, _ => []
  | fuel + 1, i =>
    if i < t.length then
      if lineStart t i then
        match listMatchAt t i with
        | some e => (i, e) :: listGo t fuel e
        | none => listGo t fuel (i + 1)
      else listGo t fuel (i + 1)
    else []

def listItemMatches (t : Text) : List (Nat × Nat) := listGo t (t.length + 1) 0

/-- All raw pattern matches in the order the Python code appends them. -/
def rawProtected (t : Text) : List (Nat × Nat) :=
  codeBlockMatches t ++ inlineCodeMatches t ++ urlMatches t ++ listItemMatches t

/-- Sort key of `protected.sort(key=lambda x: x[0])`. -/
def spanLE (a b : Nat × Nat) : Prop := a.1 ≤ b.1

instance : DecidableRel spanLE := fun a b => Nat.decLe a.1 b.1

instance : IsTotal (Nat × Nat) spanLE := ⟨fun a b => Nat.le_total a.1 b.1⟩

instance : IsTrans (Nat × Nat) spanLE := ⟨fun _ _ _ => Nat.le_trans⟩

/-- Python's stable sort by start offset (insertion sort places a new element
before later elements with an equal key, matching stability here). -/
def sortedSpans (l : List (Nat × Nat)) : List (Nat × Nat) := List.insertionSort spanLE l

/-- The coalescing walk over the sorted span list. -/
def mergeRanges : (Nat × Nat) → List (Nat × Nat) → List (Nat × Nat)
  | cur, [] => [cur]
  | cur, (s, e) :: rest =>
    if s ≤ cur.2 then mergeRanges (cur.1, max cur.2 e) rest
    else cur :: mergeRanges (s, e) rest

/-- `_find_protected_ranges(text)`. -/
def findProtectedRanges (t : Text) : List (Nat × Nat) :=
  match sortedSpans (rawProtected t) with
  | [] => []
  | r :: rest => mergeRanges r rest

/-! ### The chunking loop (`chunk_text`) -/

structure Config where
  chunkSize : Nat
  overlap : Nat
  useTokens : Bool
  minChunkSize : Nat
deriving DecidableEq, Repr

/-- The token-validation block inside `if chunk:` (lines 308–321).  Returns
the possibly reduced `(end, chunk)`; `none` when the token oracle raises. -/
def tokenAdjust (t : Text) (spans : List (Nat × Nat)) (cfg : Config)
    (tok : Text → Option Nat) (start stop : Nat) (chunk : Text) : Option (Nat × Text) :=
  if chunk = [] then some (stop, chunk)
  else if cfg.useTokens then
    match tok chunk with
    | none => none
    | some tc =>
      if tc > cfg.chunkSize * 35 / 100 ∧ stop - start > 200 then
        let re := findBreakPoint t start (start + cfg.chunkSize * 7 / 10) spans
        if re > start + 100 then
          let rchunk := stripL (slice t start re)
          if rchunk = [] then some (stop, chunk) else some (re, rchunk)
        else some (stop, chunk)
      else some (stop, chunk)
  else some (stop, chunk)

/-- Forward search for the first space in `[i, stop)` (overlap alignment). -/
def overlapScanGo (t : Text) (stop : Nat) : Nat → Nat → Option Nat
  | 0, _ => none
  | fuel + 1, i =>
    if i < stop then
      if charAt t i = ' ' then some (i + 1) else overlapScanGo t stop fuel (i + 1)
    else none

def overlapScan (t : Text) (i stop : Nat) : Option Nat := overlapScanGo t stop (stop + 1) i

/-- Lines 325–340: the next cursor position. -/
def nextStartCalc (t : Text) (cfg : Config) (start stop : Nat) : Nat :=
  if cfg.overlap > 0 ∧ stop < t.length then
    let os := stop - cfg.overlap
    if os ≤ start then stop
    else
      match overlapScan t os stop with
      | some ns => ns
      | none => stop
  else stop

/-- One iteration of the main loop, recorded: the pre-trim range
`[cstart, cstop)` and the trimmed text (empty = not appended). -/
structure ChunkIter where
  cstart : Nat
  cstop : Nat
  emitted : Text
deriving DecidableEq, Repr

/-- Lines 299–303 of `chunk_text`: the chosen chunk end, with the
"ensure we make progress" safety valve (`if end <= start: end = max_end`). -/
def loopEnd1 (t : Text) (spans : List (Nat × Nat)) (start maxEnd : Nat) : Nat :=
  if findBreakPoint t start maxEnd spans ≤ start then maxEnd
  else findBreakPoint t start maxEnd spans

/-- Lines 342–344 of `chunk_text`: the next cursor with its
"prevent infinite loop" safety valve (`if next_start <= start: next_start = end`). -/
def loopNext (t : Text) (cfg : Config) (start end2 : Nat) : Nat :=
  if nextStartCalc t cfg start end2 ≤ start then end2 else nextStartCalc t cfg start end2

/-- The `while start < len(text)` loop of `chunk_text`, producing the list of
iteration records.  `none` = the token oracle raised (or fuel exhausted; the
wrapper's fuel `length + 1` always suffices because the cursor strictly
advances). -/
def chunkLoopGo (t : Text) (spans : List (Nat × Nat)) (cfg : Config)
    (tok : Text → Option Nat) : Nat → Nat → Option (List ChunkIter)
  | 0, _ => none
  | fuel + 1, start =>
    if start < t.length then
      if min (start + cfg.chunkSize) t.length ≥ t.length then
        some [⟨start, t.length, stripL (slice t start t.length)⟩]
      else
        match tokenAdjust t spans cfg tok start
            (loopEnd1 t spans start (min (start + cfg.chunkSize) t.length))
            (stripL (slice t start
              (loopEnd1 t spans start (min (start + cfg.chunkSize) t.length)))) with
        | none => none
        | some (end2, chunk2) =>
          if loopNext t cfg start end2 ≤ start then some [⟨start, end2, chunk2⟩]
          else
            match chunkLoopGo t spans cfg tok fuel (loopNext t cfg start end2) with
            | none => none
            | some rest => some (⟨start, end2, chunk2⟩ :: rest)
    else some []

/-- The loop iterations of `chunk_text` on a given input (empty when one of
the pre-loop early returns fires). -/
def chunkIters (text : Text) (cfg : Config) (tok : Text → Option Nat) :
    Option (List ChunkIter) :=
  let t := stripL text
  if t = [] then some []
  else if t.length ≤ cfg.chunkSize then some []
  else chunkLoopGo t (findProtectedRanges t) cfg tok (t.length + 1) 0

/-! ### `_merge_small_chunks` -/

/-- The single left-to-right merging pass with accumulator `current`,
including the final `if current: merged.append(current)`. -/
def mergePass1 (minSz limit : Nat) : Text → List Text → List Text
  | cur, [] => if cur = [] then [] else [cur]
  | cur, next :: rest =>
    if cur.length < minSz then
      if cur.length + next.length + 1 ≤ limit then mergePass1 minSz limit (cur ++ ' ' :: next) rest
      else cur :: mergePass1 minSz limit next rest
    else if next.length < minSz then
      if cur.length + next.length + 1 ≤ limit then mergePass1 minSz limit (cur ++ ' ' :: next) rest
      else cur :: mergePass1 minSz limit next rest
    else cur :: mergePass1 minSz limit next rest

/-- Second pass: fuse an undersized final chunk into its predecessor. -/
def mergeLastPass (minSz limit : Nat) (l : List Text) : List Text :=
  match l.reverse with
  | lastC :: prev :: rest =>
    if lastC.length < minSz ∧ prev.length + lastC.length + 1 ≤ limit then
      ((prev ++ ' ' :: lastC) :: rest).reverse
    else l
  | _ => l

/-- Third pass: fuse an undersized first chunk into its successor. -/
def mergeFirstPass (minSz limit : Nat) (l : List Text) : List Text :=
  match l with
  | a :: b :: rest =>
    if a.length < minSz ∧ a.length + b.length + 1 ≤ limit then (a ++ ' ' :: b) :: rest
    else l
  | _ => l

/-- `_merge_small_chunks(chunks, min_chunk_size, max_chunk_size)`;
`merge_limit = int(max_chunk_size * 1.5) = 3 * max_chunk_size / 2`. -/
def mergeSmallChunks (chunks : List Text) (minSz maxSz : Nat) : List Text :=
  match chunks with
  | [] => []
  | [c] => [c]
  | c :: rest =>
    mergeFirstPass minSz (maxSz * 3 / 2)
      (mergeLastPass minSz (maxSz * 3 / 2) (mergePass1 minSz (maxSz * 3 / 2) c rest))

/-- `chunk_text(text, chunk_size, overlap, use_tokens, min_chunk_size)`.
`none` = a Python exception escaped (the token oracle raised). -/
def chunkText (text : Text) (cfg : Config) (tok : Text → Option Nat) : Option (List Text) :=
  let t := stripL text
  if t = [] then some []
  else if t.length ≤ cfg.chunkSize then some [t]
  else
    match chunkLoopGo t (findProtectedRanges t) cfg tok (t.length + 1) 0 with
    | none => none
    | some iters =>
      let chunks := (iters.map ChunkIter.emitted).filter (fun c => !c.isEmpty)
      some (if cfg.minChunkSize > 0 ∧ chunks.length > 1 then
          mergeSmallChunks chunks cfg.minChunkSize cfg.chunkSize
        else chunks)

/-! ### `chunk_documents` -/

/-- A document dictionary; `none` models an absent key. -/
structure Doc where
  id : Option Text
  text : Option Text
  channel : Option Text
  channelName : Option Text
  user : Option Text
  ts : Option Text
  permalink : Option Text
deriving DecidableEq, Repr

structure ChunkMeta where
  channel : Text
  channelName : Text
  user : Text
  ts : Text
  permalink : Text
  chunkIndex : Nat
deriving DecidableEq, Repr

structure ChunkedDoc where
  id : Text
  text : Text
  metadata : ChunkMeta
deriving DecidableEq, Repr

/-- The inner `for i, chunk in enumerate(chunks)` loop; reading `doc["id"]`
on a missing key raises `KeyError` (`none`). -/
def buildChunked (d : Doc) : Nat → List Text → Option (List ChunkedDoc)
  | _, [] => some []
  | i, c :: cs =>
    match d.id with
    | none => none
    | some did =>
      match buildChunked d (i + 1) cs with
      | none => none
      | some rest =>
        some ({ id := did ++ ("-chunk-".toList) ++ (Nat.toDigits 10 i)
                text := c
                metadata :=
                  { channel := d.channel.getD []
                    channelName := d.channelName.getD []
                    user := d.user.getD []
                    ts := d.ts.getD []
                    permalink := d.permalink.getD []
                    chunkIndex := i } } :: rest)

/-- `chunk_documents(docs, chunk_size, overlap, use_tokens)`; it calls
`chunk_text` with the default `min_chunk_size = 50`.  `none` models an
escaping exception (`KeyError` on a missing `id`, or the token oracle). -/
def chunkDocuments (docs : List Doc) (chunkSize overlap : Nat) (useTokens : Bool)
    (tok : Text → Option Nat) : Option (List ChunkedDoc) :=
  match docs with
  | [] => some []
  | d :: rest =>
    let txt := d.text.getD []
    if txt = [] then chunkDocuments rest chunkSize overlap useTokens tok
    else
      match chunkText txt ⟨chunkSize, overlap, useTokens, 50⟩ tok with
      | none => none
      | some chunks =>
        match buildChunked d 0 chunks with
        | none => none
        | some cds =>
          match chunkDocuments rest chunkSize overlap useTokens tok with
          | none => none
          | some more => some (cds ++ more)

/-! ### Concrete inputs used by counterexamples and witnesses -/

/-- A token oracle that always succeeds (token validation passes trivially). -/
def zeroTok : Text → Option Nat := fun _ => some 0

/-- A token oracle that always raises (models a tokenizer backend error). -/
def failTok : Text → Option Nat := fun _ => none

def c1text : Text := "XXXX `a b` YYYY".toList

def c1cfg : Config := ⟨10, 5, false, 0⟩

def c1cfg0 : Config := ⟨10, 0, false, 0⟩

/-- The two loop iterations of `c1text` at overlap 0 (checked by `decide`). -/
def c1iters : List ChunkIter :=
  [⟨0, 11, stripL (slice (stripL c1text) 0 11)⟩,
   ⟨11, 15, stripL (slice (stripL c1text) 11 15)⟩]

def c2period : Text := "ab xxxxxxxxx".toList

def c2text : Text := (List.replicate 40 c2period).flatten

def c2cfg : Config := ⟨10, 0, false, 0⟩

def c3text : Text := 'a' :: (List.replicate 20 ' ' ++ ['b'])

def c4text : Text := "abc".toList

def c5text : Text := "0123456789".toList

def c7text : Text := "aaaa bbbb cccc".toList

def c7cfg : Config := ⟨10, 0, true, 50⟩

def c8text : Text := "x ```ab``` y".toList

def c9text : Text := "aaaa\nbbbb\ncc".toList

def c9cfg : Config := ⟨10, 0, false, 5⟩

def c9merged : Text := "aaaa\nbbbb cc".toList

def docBlankNoId : Doc := ⟨none, some (" ".toList), none, none, none, none, none⟩

def docHelloNoId : Doc := ⟨none, some ("hello".toList), none, none, none, none, none⟩

def docHello : Doc :=
  ⟨some ("m1".toList), some ("hello".toList), none, none, none, none, none⟩

def docNoText : Doc := ⟨some ("m2".toList), none, none, none, none, none, none⟩

/-- Number of iterations the main loop of `chunk_text` performed. -/
def chunkIterCount (text : Text) (cfg : Config) (tok : Text → Option Nat) : Nat :=
  ((chunkIters text cfg tok).getD []).length

/-- The three loop iterations on `c3text` (computed; checked by `decide`). -/
def c3iters : List ChunkIter := [⟨0, 11, ['a']⟩, ⟨11, 21, []⟩, ⟨21, 22, ['b']⟩]

/-- The two loop iterations on `c9text` (computed; checked by `decide`). -/
def c9iters : List ChunkIter :=
  [⟨0, 10, "aaaa\nbbbb".toList⟩, ⟨10, 12, "cc".toList⟩]

/-- The no-split property exactly as claimed: every merged protected span is
fully contained in some emitted chunk's pre-trim range, and no emitted
chunk's range starts or ends strictly inside a span's interior. -/
def noSplitClaim (text : Text) (cfg : Config) (tok : Text → Option Nat) : Prop :=
  ∀ sp ∈ findProtectedRanges (stripL text),
    (∃ it ∈ (chunkIters text cfg tok).getD [],
        it.emitted ≠ [] ∧ it.cstart ≤ sp.1 ∧ sp.2 ≤ it.cstop) ∧
    ∀ it ∈ (chunkIters text cfg tok).getD [], it.emitted ≠ [] →
      ¬(sp.1 < it.cstart ∧ it.cstart < sp.2) ∧ ¬(sp.1 < it.cstop ∧ it.cstop < sp.2)

/-- The coverage property exactly as claimed: every character offset of the
trimmed source lies in the pre-trim range of some emitting loop iteration. -/
def coverageClaim (text : Text) (cfg : Config) (tok : Text → Option Nat) : Prop :=
  ∀ p < (stripL text).length,
    ∃ it ∈ (chunkIters text cfg tok).getD [],
      it.emitted ≠ [] ∧ it.cstart ≤ p ∧ p < it.cstop

/-- The iteration bound exactly as claimed, with the "small constant" made a
parameter `slack`. -/
def iterBoundClaim (text : Text) (cfg : Config) (tok : Text → Option Nat)
    (slack : Nat) : Prop :=
  chunkIterCount text cfg tok ≤
    text.length / max 1 (cfg.chunkSize - cfg.overlap) + slack

/-- The merger invariant's adjacency relation: two adjacent chunks may both
be below `minSz` only if joining them with one space would exceed `limit`. -/
def mergerOK (minSz limit : Nat) (a b : Text) : Prop :=
  a.length < minSz → b.length < minSz → limit < a.length + b.length + 1

/-! ### Lemmas about `_get_protected_range_at` -/

theorem gpra_mem : ∀ (spans : List (Nat × Nat)) (p s e : Nat),
    getProtectedRangeAt p spans = some (s, e) → (s, e) ∈ spans ∧ s ≤ p ∧ p < e := by
  intro spans
  induction spans with
  | nil => intro p s e h; simp [getProtectedRangeAt] at h
  | cons hd tl ih =>
    intro p s e h
    obtain ⟨s', e'⟩ := hd
    rw [getProtectedRangeAt] at h
    split at h
    · rename_i hc
      cases h
      exact ⟨List.mem_cons_self _ _, hc.1, hc.2⟩
    · split at h
      · cases h
      · obtain ⟨hm, h1, h2⟩ := ih p s e h
        exact ⟨List.mem_cons_of_mem _ hm, h1, h2⟩

/-- Two overlapping members of a separated well-formed span list coincide. -/
theorem span_overlap_eq : ∀ (spans : List (Nat × Nat)),
    List.Pairwise (fun a b => a.2 < b.1) spans →
    ∀ sp1 ∈ spans, ∀ sp2 ∈ spans, sp1.1 < sp2.2 → sp2.1 < sp1.2 → sp1 = sp2 := by
  intro spans
  induction spans with
  | nil => intro _ sp1 h1; simp at h1
  | cons hd tl ih =>
    intro hp sp1 h1 sp2 h2 o1 o2
    rw [List.pairwise_cons] at hp
    rcases List.mem_cons.mp h1 with heq1 | h1m <;> rcases List.mem_cons.mp h2 with heq2 | h2m
    · rw [heq1, heq2]
    · subst heq1
      have := hp.1 sp2 h2m
      omega
    · subst heq2
      have := hp.1 sp1 h1m
      omega
    · exact ih hp.2 sp1 h1m sp2 h2m o1 o2

/-- On a sorted, separated, well-formed span list the linear lookup finds the
span containing a position. -/
theorem gpra_eq_some_of_mem : ∀ (spans : List (Nat × Nat)) (p s e : Nat),
    List.Pairwise (fun a b => a.2 < b.1) spans →
    (∀ sp ∈ spans, sp.1 < sp.2) →
    (s, e) ∈ spans → s ≤ p → p < e →
    getProtectedRangeAt p spans = some (s, e) := by
  intro spans
  induction spans with
  | nil => intro p s e _ _ hm; simp at hm
  | cons hd tl ih =>
    intro p s e hp hwf hm h1 h2
    obtain ⟨s', e'⟩ := hd
    rw [List.pairwise_cons] at hp
    rcases List.mem_cons.mp hm with heq | hm
    · cases heq
      rw [getProtectedRangeAt]
      simp [h1, h2]
    · have hsep := hp.1 (s, e) hm
      have hwf' := hwf (s', e') (List.mem_cons_self _ _)
      simp only at hsep hwf'
      rw [getProtectedRangeAt]
      rw [if_neg (by omega), if_neg (by omega)]
      exact ih p s e hp.2 (fun sp h => hwf sp (List.mem_cons_of_mem _ h)) hm h1 h2

theorem gpra_none {spans : List (Nat × Nat)} {p : Nat}
    (hp : List.Pairwise (fun a b => a.2 < b.1) spans)
    (hwf : ∀ sp ∈ spans, sp.1 < sp.2)
    (h : getProtectedRangeAt p spans = none) :
    ∀ sp ∈ spans, ¬(sp.1 ≤ p ∧ p < sp.2) := by
  rintro ⟨s, e⟩ hm ⟨h1, h2⟩
  rw [gpra_eq_some_of_mem spans p s e hp hwf hm h1 h2] at h
  cases h

/-- If the character just before offset `b` is in no span, then `b` is not
strictly inside a span's interior. -/
theorem not_inside_of_gpra_none {spans : List (Nat × Nat)} {b : Nat}
    (hp : List.Pairwise (fun a b => a.2 < b.1) spans)
    (hwf : ∀ sp ∈ spans, sp.1 < sp.2)
    (h : getProtectedRangeAt (b - 1) spans = none) :
    ∀ sp ∈ spans, ¬(sp.1 < b ∧ b < sp.2) := by
  rintro ⟨s, e⟩ hm ⟨h1, h2⟩
  exact gpra_none hp hwf h (s, e) hm (by omega)

/-- The right endpoint of a span is never strictly inside a span's interior. -/
theorem end_not_inside {spans : List (Nat × Nat)} {s e : Nat}
    (hp : List.Pairwise (fun a b => a.2 < b.1) spans)
    (hwf : ∀ sp ∈ spans, sp.1 < sp.2)
    (hm : (s, e) ∈ spans) :
    ∀ sp ∈ spans, ¬(sp.1 < e ∧ e < sp.2) := by
  rintro ⟨s2, e2⟩ hm2 ⟨h1, h2⟩
  have hwf1 := hwf (s, e) hm
  have heq := span_overlap_eq spans hp (s, e) hm (s2, e2) hm2 (by simp only; omega)
    (by simp only; omega)
  cases heq
  omega

theorem protectedEndAt_ne_none : ∀ (spans : List (Nat × Nat)) (pos s e : Nat),
    (s, e) ∈ spans → s ≤ pos → pos < e → protectedEndAt pos spans ≠ none := by
  intro spans
  induction spans with
  | nil => intro pos s e hm; simp at hm
  | cons hd tl ih =>
    intro pos s e hm h1 h2
    obtain ⟨s', e'⟩ := hd
    rw [protectedEndAt]
    split
    · simp
    · rename_i hc
      rcases List.mem_cons.mp hm with heq | hmem
      · cases heq; exact absurd ⟨h1, h2⟩ hc
      · exact ih pos s e hmem h1 h2

theorem protectedEndAt_some : ∀ (spans : List (Nat × Nat)) (pos re : Nat),
    protectedEndAt pos spans = some re →
    ∃ s, (s, re) ∈ spans ∧ s ≤ pos ∧ pos < re := by
  intro spans
  induction spans with
  | nil => intro pos re h; simp [protectedEndAt] at h
  | cons hd tl ih =>
    intro pos re h
    obtain ⟨s', e'⟩ := hd
    rw [protectedEndAt] at h
    split at h
    · rename_i hc
      cases h
      exact ⟨s', List.mem_cons_self _ _, hc.1, hc.2⟩
    · obtain ⟨s, hm, h1, h2⟩ := ih pos re h
      exact ⟨s, List.mem_cons_of_mem _ hm, h1, h2⟩

/-! ### Lemmas about `_find_break_point` -/

theorem classify_pos {t : Text} {i pr pos : Nat} (h : classify t i = some (pr, pos)) :
    pos = i + 1 ∨ pos = i + 2 := by
  rw [classify] at h
  split at h
  · cases h; right; rfl
  · split at h
    · cases h; left; rfl
    · split at h
      · cases h; left; rfl
      · split at h
        · cases h; left; rfl
        · cases h

theorem scanLoop_some {t : Text} {spans : List (Nat × Nat)} {ss : Nat} :
    ∀ (i : Nat) (best : Option Nat) (bp b : Nat),
    scanLoop t spans ss i best bp = some b →
    (∀ b0, best = some b0 → ss + 2 ≤ b0 ∧ getProtectedRangeAt (b0 - 1) spans = none) →
    ss + 2 ≤ b ∧ getProtectedRangeAt (b - 1) spans = none := by
  intro i
  induction i with
  | zero => intro best bp b h hb; exact hb b h
  | succ i ih =>
    intro best bp b h hb
    rw [scanLoop] at h
    split at h
    · exact hb b h
    · split at h
      · exact ih best bp b h hb
      · rename_i hprot
        split at h
        · exact ih best bp b h hb
        · rename_i pr pos hcl
          split at h
          · exact ih best bp b h hb
          · rename_i hpos
            have hnone : getProtectedRangeAt (pos - 1) spans = none :=
              Option.not_isSome_iff_eq_none.mp hpos
            have hposge : ss + 2 ≤ pos := by
              rcases classify_pos hcl with h' | h' <;> omega
            split at h
            · split at h
              · cases h
                exact ⟨hposge, hnone⟩
              · refine ih (some pos) pr b h ?_
                intro b0 hb0
                injection hb0 with hb0
                subst hb0
                exact ⟨hposge, hnone⟩
            · exact ih best bp b h hb

theorem fallbackScan_some {t : Text} {spans : List (Nat × Nat)} {start : Nat} :
    ∀ (i b : Nat), fallbackScan t spans start i = some b →
    start + 2 ≤ b ∧ getProtectedRangeAt (b - 1) spans = none := by
  intro i
  induction i with
  | zero => intro b h; simp [fallbackScan] at h
  | succ i ih =>
    intro b h
    rw [fallbackScan] at h
    split at h
    · cases h
    · split at h
      · rename_i hle hc
        cases h
        refine ⟨by omega, ?_⟩
        have := hc.2
        simpa [Option.isNone_iff_eq_none] using this
      · exact ih b h

theorem searchAfterClip_gt {t : Text} {start ceil : Nat} {spans : List (Nat × Nat)}
    (h : start < ceil) : start < searchAfterClip t start ceil spans := by
  rw [searchAfterClip]
  cases hs : scanLoop t spans (start + (ceil - start) / 2) ceil none 100 with
  | some b =>
    have := scanLoop_some ceil none 100 b hs (by intro b0 hb0; cases hb0)
    simp only
    omega
  | none =>
    simp only
    cases hf : fallbackScan t spans start ceil with
    | some b =>
      have := fallbackScan_some ceil b hf
      simp only
      omega
    | none =>
      simp only
      split
      · cases hep : protectedEndAt (ceil - 1) spans with
        | some re =>
          obtain ⟨s, hm, h1, h2⟩ := protectedEndAt_some spans (ceil - 1) re hep
          simp only
          omega
        | none => simp only; omega
      · omega

theorem findBreakPoint_gt {t : Text} {start maxEnd : Nat} {spans : List (Nat × Nat)}
    (hlen : start < t.length) (hme : start < maxEnd) :
    start < findBreakPoint t start maxEnd spans := by
  rw [findBreakPoint]
  split
  · omega
  · rename_i hlt
    cases hg : getProtectedRangeAt maxEnd spans with
    | some sp =>
      obtain ⟨s, e⟩ := sp
      obtain ⟨_, h1, h2⟩ := gpra_mem spans maxEnd s e hg
      simp only
      split
      · omega
      · exact searchAfterClip_gt (by omega)
    | none => exact searchAfterClip_gt hme

theorem searchAfterClip_boundary {t : Text} {start ceil : Nat} {spans : List (Nat × Nat)}
    (hp : List.Pairwise (fun a b => a.2 < b.1) spans)
    (hwf : ∀ sp ∈ spans, sp.1 < sp.2) :
    ∀ sp ∈ spans,
      ¬(sp.1 < searchAfterClip t start ceil spans ∧ searchAfterClip t start ceil spans < sp.2) := by
  rw [searchAfterClip]
  cases hs : scanLoop t spans (start + (ceil - start) / 2) ceil none 100 with
  | some b =>
    have hb := scanLoop_some ceil none 100 b hs (by intro b0 hb0; cases hb0)
    simpa only using not_inside_of_gpra_none hp hwf hb.2
  | none =>
    simp only
    cases hf : fallbackScan t spans start ceil with
    | some b =>
      have hb := fallbackScan_some ceil b hf
      simpa only using not_inside_of_gpra_none hp hwf hb.2
    | none =>
      simp only
      split
      · rename_i hsome
        cases hep : protectedEndAt (ceil - 1) spans with
        | some re =>
          obtain ⟨s, hm, _, _⟩ := protectedEndAt_some spans (ceil - 1) re hep
          simpa only using end_not_inside hp hwf hm
        | none =>
          rcases Option.isSome_iff_exists.mp hsome with ⟨⟨s, e⟩, hg⟩
          obtain ⟨hm, h1, h2⟩ := gpra_mem spans (ceil - 1) s e hg
          exact absurd hep (protectedEndAt_ne_none spans (ceil - 1) s e hm h1 h2)
      · rename_i hnone
        have h : getProtectedRangeAt (ceil - 1) spans = none := by
          cases hop : getProtectedRangeAt (ceil - 1) spans with
          | none => rfl
          | some v => rw [hop] at hnone; simp at hnone
        exact not_inside_of_gpra_none hp hwf h

theorem findBreakPoint_boundary {t : Text} {start maxEnd : Nat} {spans : List (Nat × Nat)}
    (hp : List.Pairwise (fun a b => a.2 < b.1) spans)
    (hwf : ∀ sp ∈ spans, sp.1 < sp.2 ∧ sp.2 ≤ t.length) :
    ∀ sp ∈ spans,
      ¬(sp.1 < findBreakPoint t start maxEnd spans ∧ findBreakPoint t start maxEnd spans < sp.2) := by
  have hwf1 : ∀ sp ∈ spans, sp.1 < sp.2 := fun sp h => (hwf sp h).1
  rw [findBreakPoint]
  split
  · rintro ⟨s, e⟩ hm ⟨h1, h2⟩
    have := (hwf (s, e) hm).2
    simp only at h2 this
    omega
  · cases hg : getProtectedRangeAt maxEnd spans with
    | some sp =>
      obtain ⟨s, e⟩ := sp
      obtain ⟨hm, _, _⟩ := gpra_mem spans maxEnd s e hg
      simp only
      split
      · exact end_not_inside hp hwf1 hm
      · exact searchAfterClip_boundary hp hwf1
    | none => exact searchAfterClip_boundary hp hwf1

/-- Claim C4, as stated, is false: with `text = "abc"`, `start = 2 < 3 = len(text)`
and `max_end = 1 < start`, `_find_break_point` returns `1`, which is not
greater than `start` (all scan ranges are empty and the last resort returns
`max_end` verbatim). -/
theorem claim_C4_counterexample :
    2 < c4text.length ∧ ¬ 2 < findBreakPoint c4text 2 1 [] := by decide

/-- Claim C4 (amended): for every text, start, `max_end` and protected-span
list, the offset returned by `_find_break_point` is strictly greater than
`start` whenever `start < len(text)` **and** `start < max_end` (the latter is
what the caller guarantees with a positive chunk size). -/
theorem claim_C4 {t : Text} {start maxEnd : Nat} (spans : List (Nat × Nat))
    (h1 : start < t.length) (h2 : start < maxEnd) :
    start < findBreakPoint t start maxEnd spans :=
  findBreakPoint_gt h1 h2

theorem claim_C4_witness :
    0 < c4text.length ∧ 0 < 2 ∧ 0 < findBreakPoint c4text 0 2 [] :=
  ⟨by decide, by decide, claim_C4 [] (by decide) (by decide)⟩

/-- Claim C5: if `max_end < len(text)` and `max_end` falls strictly inside a
protected span `[s, e)` of the merged (sorted, disjoint, well-formed) span
list, then `_find_break_point` returns exactly `e` when `s ≤ start` (the
chunk swallows the whole span, even when `e - start` exceeds the target
size), and when `s > start` it proceeds with the backward search whose
ceiling is `s` instead of `max_end`. -/
theorem claim_C5 {t : Text} {start maxEnd s e : Nat} {spans : List (Nat × Nat)}
    (hp : List.Pairwise (fun a b => a.2 < b.1) spans)
    (hwf : ∀ sp ∈ spans, sp.1 < sp.2)
    (hm : (s, e) ∈ spans) (hs : s < maxEnd) (hme : maxEnd < e)
    (hlen : maxEnd < t.length) :
    (s ≤ start → findBreakPoint t start maxEnd spans = e) ∧
    (start < s → findBreakPoint t start maxEnd spans = searchAfterClip t start s spans) := by
  have hg : getProtectedRangeAt maxEnd spans = some (s, e) :=
    gpra_eq_some_of_mem spans maxEnd s e hp hwf hm (Nat.le_of_lt hs) hme
  constructor
  · intro hle
    rw [findBreakPoint, if_neg (by omega), hg]
    simp [hle]
  · intro hgt
    rw [findBreakPoint, if_neg (by omega), hg]
    simp [Nat.not_le.mpr hgt]

theorem claim_C5_witness :
    findBreakPoint c5text 3 4 [(2, 6)] = 6 ∧
    findBreakPoint c5text 0 3 [(2, 6)] = searchAfterClip c5text 0 2 [(2, 6)] := by
  constructor
  · exact (@claim_C5 c5text 3 4 2 6 [(2, 6)] (by decide) (by decide) (by decide)
      (by decide) (by decide) (by decide)).1 (by decide)
  · exact (@claim_C5 c5text 0 3 2 6 [(2, 6)] (by decide) (by decide) (by decide)
      (by decide) (by decide) (by decide)).2 (by decide)

/-- Claim C7: the code does **not** skip token validation when the token
oracle fails; the exception escapes `chunk_text` (first conjunct: with an
always-raising oracle the call produces no chunk list), whereas with a
working oracle the same input chunks fine (second conjunct), so the failure
comes from the oracle call alone. -/
theorem claim_C7 :
    chunkText c7text c7cfg failTok = none ∧
    chunkText c7text c7cfg zeroTok = some [c7text] := ⟨rfl, rfl⟩

/-! ### `chunk_documents` lemmas -/

theorem buildChunked_total (d : Doc) (did : Text) (hid : d.id = some did) :
    ∀ (cs : List Text) (i : Nat), ∃ l, buildChunked d i cs = some l := by
  intro cs
  induction cs with
  | nil => intro i; exact ⟨[], rfl⟩
  | cons c cl ih =>
    intro i
    obtain ⟨l, hl⟩ := ih (i + 1)
    refine ⟨{ id := did ++ ("-chunk-".toList) ++ (Nat.toDigits 10 i)
              text := c
              metadata :=
                { channel := d.channel.getD []
                  channelName := d.channelName.getD []
                  user := d.user.getD []
                  ts := d.ts.getD []
                  permalink := d.permalink.getD []
                  chunkIndex := i } } :: l, ?_⟩
    rw [buildChunked, hid, hl]

/-- Claim C10, as stated, is false on whitespace-only text: a document whose
`text` is `" "` (non-empty) and whose `id` key is missing makes
`chunk_documents` succeed with zero chunks — `chunk_text` returns `[]`, the
inner loop body never runs, and `doc["id"]` is never read, so no `KeyError`
is raised. -/
theorem claim_C10_counterexample :
    docBlankNoId.text.getD [] ≠ [] ∧ docBlankNoId.id = none ∧
    chunkDocuments [docBlankNoId] 600 0 false zeroTok = some [] := by
  refine ⟨by decide, rfl, rfl⟩

/-- Claim C10 (amended): for a document whose text produces **at least one
chunk**, `doc["id"]` is read, so a missing `id` key makes the whole call
raise `KeyError` (first conjunct); with `id` present, the other metadata
keys silently default to the empty string in the produced chunk metadata
(second conjunct); and a document whose `text` is missing or empty is
skipped without error and contributes nothing (third conjunct).  A non-empty
text that yields zero chunks (whitespace-only) also never reads `id`. -/
theorem claim_C10 :
    (∀ (d : Doc) (rest : List Doc) (cs ov : Nat) (ut : Bool)
        (tok : Text → Option Nat) (t c : Text) (cl : List Text),
      d.text = some t → t ≠ [] → d.id = none →
      chunkText t ⟨cs, ov, ut, 50⟩ tok = some (c :: cl) →
      chunkDocuments (d :: rest) cs ov ut tok = none) ∧
    (∀ (d : Doc) (rest : List Doc) (cs ov : Nat) (ut : Bool)
        (tok : Text → Option Nat) (t c did : Text) (cl : List Text)
        (more : List ChunkedDoc),
      d.text = some t → t ≠ [] → d.id = some did →
      chunkText t ⟨cs, ov, ut, 50⟩ tok = some (c :: cl) →
      chunkDocuments rest cs ov ut tok = some more →
      ∃ others, chunkDocuments (d :: rest) cs ov ut tok =
        some ({ id := did ++ ("-chunk-".toList) ++ (Nat.toDigits 10 0)
                text := c
                metadata :=
                  { channel := d.channel.getD []
                    channelName := d.channelName.getD []
                    user := d.user.getD []
                    ts := d.ts.getD []
                    permalink := d.permalink.getD []
                    chunkIndex := 0 } } :: others)) ∧
    (∀ (d : Doc) (rest : List Doc) (cs ov : Nat) (ut : Bool)
        (tok : Text → Option Nat),
      d.text.getD [] = [] →
      chunkDocuments (d :: rest) cs ov ut tok = chunkDocuments rest cs ov ut tok) := by
  refine ⟨?_, ?_, ?_⟩
  · intro d rest cs ov ut tok t c cl ht htne hid hct
    rw [chunkDocuments]
    simp only [ht, Option.getD_some, if_neg htne, hct, buildChunked, hid]
  · intro d rest cs ov ut tok t c did cl more ht htne hid hct hrest
    obtain ⟨l, hl⟩ := buildChunked_total d did hid cl 1
    refine ⟨l ++ more, ?_⟩
    rw [chunkDocuments]
    simp only [ht, Option.getD_some, if_neg htne, hct, hrest]
    rw [buildChunked, hid, hl]
    simp
  · intro d rest cs ov ut tok ht
    rw [chunkDocuments]
    simp [ht]

theorem claim_C10_witness :
    chunkDocuments [docHelloNoId] 600 0 false zeroTok = none ∧
    (∃ others, chunkDocuments [docHello] 600 0 false zeroTok =
      some ({ id := ("m1".toList) ++ ("-chunk-".toList) ++ (Nat.toDigits 10 0)
              text := "hello".toList
              metadata := ⟨[], [], [], [], [], 0⟩ } :: others)) ∧
    chunkDocuments [docNoText] 600 0 false zeroTok =
      chunkDocuments [] 600 0 false zeroTok := by
  refine ⟨?_, ?_, ?_⟩
  · exact claim_C10.1 docHelloNoId [] 600 0 false zeroTok ("hello".toList)
      ("hello".toList) [] rfl (by decide) rfl rfl
  · exact claim_C10.2.1 docHello [] 600 0 false zeroTok ("hello".toList)
      ("hello".toList) ("m1".toList) [] [] rfl (by decide) rfl rfl rfl
  · exact claim_C10.2.2 docNoText [] 600 0 false zeroTok rfl

/-! ### Lemmas about `strip` and slices -/

theorem head_dropWhile_not (p : Char → Bool) (l : List Char) :
    ∀ c ∈ (l.dropWhile p).head?, p c = false := by
  induction l with
  | nil => simp
  | cons a l ih =>
    intro c hc
    rw [List.dropWhile_cons] at hc
    split at hc
    · exact ih c hc
    · rename_i hpa
      simp only [List.head?_cons, Option.mem_def, Option.some.injEq] at hc
      subst hc
      simpa using hpa

theorem dropWhile_eq_self (p : Char → Bool) (l : List Char)
    (h : ∀ c ∈ l.head?, p c = false) : l.dropWhile p = l := by
  cases l with
  | nil => rfl
  | cons a l =>
    have ha := h a (by simp)
    rw [List.dropWhile_cons, if_neg (by simp [ha])]

theorem getLast?_append_right {x y : List Char} (hy : y ≠ []) :
    (x ++ y).getLast? = y.getLast? := by
  rw [List.getLast?_append]
  cases hl : y.getLast? with
  | none => exact absurd (List.getLast?_eq_none_iff.mp hl) hy
  | some c => rfl

theorem getLast?_dropWhile (p : Char → Bool) (l : List Char)
    (h : l.dropWhile p ≠ []) : (l.dropWhile p).getLast? = l.getLast? := by
  obtain ⟨s, hs⟩ : l.dropWhile p <:+ l := List.dropWhile_suffix p
  conv_rhs => rw [← hs]
  rw [getLast?_append_right h]

theorem stripL_last (l : Text) : ∀ c ∈ (stripL l).getLast?, isSpaceChar c = false := by
  intro c hc
  rw [stripL, List.getLast?_reverse] at hc
  exact head_dropWhile_not _ _ c hc

theorem stripL_head (l : Text) : ∀ c ∈ (stripL l).head?, isSpaceChar c = false := by
  intro c hc
  rw [stripL, List.head?_reverse] at hc
  by_cases hne : (l.dropWhile isSpaceChar).reverse.dropWhile isSpaceChar = []
  · rw [hne] at hc; cases hc
  · rw [getLast?_dropWhile _ _ hne, List.getLast?_reverse] at hc
    exact head_dropWhile_not _ _ c hc

theorem stripL_eq_self {l : Text} (h1 : ∀ c ∈ l.head?, isSpaceChar c = false)
    (h2 : ∀ c ∈ l.getLast?, isSpaceChar c = false) : stripL l = l := by
  rw [stripL, dropWhile_eq_self _ _ h1,
    dropWhile_eq_self _ _ (by rw [List.head?_reverse]; exact h2), List.reverse_reverse]

theorem stripL_idem (l : Text) : stripL (stripL l) = stripL l :=
  stripL_eq_self (stripL_head l) (stripL_last l)

theorem stripL_all_space {l : Text} (h : stripL l = []) :
    ∀ c ∈ l, isSpaceChar c = true := by
  rw [stripL, List.reverse_eq_nil_iff, List.dropWhile_eq_nil_iff] at h
  intro c hc
  rw [← List.takeWhile_append_dropWhile isSpaceChar l] at hc
  rcases List.mem_append.mp hc with hc | hc
  · exact List.mem_takeWhile_imp hc
  · exact h c (List.mem_reverse.mpr hc)

theorem stripL_ne_nil {l : Text} {c : Char} (hc : c ∈ l)
    (hs : isSpaceChar c = false) : stripL l ≠ [] := by
  intro h
  rw [stripL_all_space h c hc] at hs
  cases hs

theorem stripL_append_one {a b : Text} (ha : stripL a = a) (hb : stripL b = b)
    (hna : a ≠ []) (hnb : b ≠ []) : stripL (a ++ ' ' :: b) = a ++ ' ' :: b := by
  refine stripL_eq_self ?_ ?_
  · intro c hc
    obtain ⟨x, a', rfl⟩ := List.exists_cons_of_ne_nil hna
    simp only [List.cons_append, List.head?_cons, Option.mem_def, Option.some.injEq] at hc
    have hx := stripL_head (x :: a')
    rw [ha] at hx
    rw [← hc]
    exact hx x (by simp)
  · intro c hc
    rw [getLast?_append_right (by simp)] at hc
    have hc2 : c ∈ b.getLast? := by
      have : (' ' :: b) = [' '] ++ b := rfl
      rwa [this, getLast?_append_right hnb] at hc
    have := stripL_last b
    rw [hb] at this
    exact this c hc2

theorem stripL_sub (l : Text) : stripL l <:+: l := by
  obtain ⟨s1, hs1⟩ : l.dropWhile isSpaceChar <:+ l := List.dropWhile_suffix _
  obtain ⟨s2, hs2⟩ : (l.dropWhile isSpaceChar).reverse.dropWhile isSpaceChar <:+
      (l.dropWhile isSpaceChar).reverse := List.dropWhile_suffix _
  refine ⟨s1, s2.reverse, ?_⟩
  have h3 : ((l.dropWhile isSpaceChar).reverse.dropWhile isSpaceChar).reverse ++ s2.reverse =
      l.dropWhile isSpaceChar := by
    have h4 := congrArg List.reverse hs2
    rwa [List.reverse_append, List.reverse_reverse] at h4
  rw [stripL, List.append_assoc, h3, hs1]

theorem slice_sub (t : Text) (a b : Nat) : slice t a b <:+: t := by
  refine ⟨t.take a, (t.drop a).drop (b - a), ?_⟩
  rw [slice, List.append_assoc, List.take_append_drop, List.take_append_drop]

theorem charAt_mem_slice {t : Text} {a b p : Nat} (h1 : a ≤ p) (h2 : p < b)
    (h3 : p < t.length) : charAt t p ∈ slice t a b := by
  have hp : (slice t a b)[p - a]? = some (charAt t p) := by
    rw [slice, List.getElem?_take, if_pos (by omega), List.getElem?_drop]
    have he : a + (p - a) = p := by omega
    rw [he, List.getElem?_eq_getElem h3, charAt, List.getD_eq_getElem?_getD,
      List.getElem?_eq_getElem h3]
    rfl
  exact List.mem_iff_getElem?.mpr ⟨p - a, hp⟩

/-! ### Lemmas about the main loop of `chunk_text` -/

theorem tokenAdjust_cases {t : Text} {spans : List (Nat × Nat)} {cfg : Config}
    {tok : Text → Option Nat} {start stop : Nat} {chunk : Text} {e2 : Nat} {c2 : Text}
    (h : tokenAdjust t spans cfg tok start stop chunk = some (e2, c2)) :
    (e2 = stop ∧ c2 = chunk) ∨
    (start + 100 < e2 ∧ e2 = findBreakPoint t start (start + cfg.chunkSize * 7 / 10) spans ∧
      c2 = stripL (slice t start e2)) := by
  simp only [tokenAdjust] at h
  split at h
  · cases h; exact Or.inl ⟨rfl, rfl⟩
  · split at h
    · split at h
      · cases h
      · split at h
        · split at h
          · split at h
            · cases h; exact Or.inl ⟨rfl, rfl⟩
            · rename_i hre hchunk
              cases h
              exact Or.inr ⟨hre, rfl, rfl⟩
          · cases h; exact Or.inl ⟨rfl, rfl⟩
        · cases h; exact Or.inl ⟨rfl, rfl⟩
    · cases h; exact Or.inl ⟨rfl, rfl⟩

theorem tokenAdjust_gt {t : Text} {spans : List (Nat × Nat)} {cfg : Config}
    {tok : Text → Option Nat} {start stop : Nat} {chunk : Text} {e2 : Nat} {c2 : Text}
    (hs : start < stop) (h : tokenAdjust t spans cfg tok start stop chunk = some (e2, c2)) :
    start < e2 := by
  rcases tokenAdjust_cases h with ⟨rfl, -⟩ | ⟨h1, -, -⟩ <;> omega

theorem overlapScanGo_le {t : Text} {stop : Nat} :
    ∀ (fuel i ns : Nat), overlapScanGo t stop fuel i = some ns → ns ≤ stop := by
  intro fuel
  induction fuel with
  | zero => intro i ns h; cases h
  | succ fuel ih =>
    intro i ns h
    rw [overlapScanGo] at h
    split at h
    · split at h
      · rename_i hlt _
        cases h
        omega
      · exact ih _ _ h
    · cases h

theorem nextStartCalc_le {t : Text} {cfg : Config} {start stop : Nat} :
    nextStartCalc t cfg start stop ≤ stop := by
  simp only [nextStartCalc]
  split
  · split
    · exact Nat.le_refl _
    · cases hs : overlapScan t (stop - cfg.overlap) stop with
      | some ns => simpa using overlapScanGo_le _ _ _ hs
      | none => simp
  · exact Nat.le_refl _

theorem loopEnd1_gt {t : Text} {spans : List (Nat × Nat)} {start maxEnd : Nat}
    (h : start < maxEnd) : start < loopEnd1 t spans start maxEnd := by
  rw [loopEnd1]
  split
  · exact h
  · omega

theorem loopEnd1_eq {t : Text} {spans : List (Nat × Nat)} {start maxEnd : Nat}
    (hst : start < t.length) (hme : start < maxEnd) :
    loopEnd1 t spans start maxEnd = findBreakPoint t start maxEnd spans := by
  rw [loopEnd1, if_neg (by have := @findBreakPoint_gt t start maxEnd spans hst hme; omega)]

theorem loopNext_le {t : Text} {cfg : Config} {start end2 : Nat} :
    loopNext t cfg start end2 ≤ end2 := by
  rw [loopNext]
  split
  · exact Nat.le_refl _
  · exact nextStartCalc_le

theorem loopNext_gt {t : Text} {cfg : Config} {start end2 : Nat}
    (h : start < end2) : start < loopNext t cfg start end2 := by
  rw [loopNext]
  split
  · exact h
  · omega

theorem chunkLoopGo_len {t : Text} {spans : List (Nat × Nat)} {cfg : Config}
    {tok : Text → Option Nat} :
    ∀ (fuel start : Nat) (l : List ChunkIter),
    chunkLoopGo t spans cfg tok fuel start = some l → l.length ≤ t.length - start := by
  intro fuel
  induction fuel with
  | zero => intro start l h; cases h
  | succ fuel ih =>
    intro start l h
    rw [chunkLoopGo] at h
    split at h
    · rename_i hst
      split at h
      · cases h
        simp only [List.length_singleton]
        omega
      · split at h
        · cases h
        · rename_i end2 chunk2 hta
          split at h
          · cases h
            simp only [List.length_singleton]
            omega
          · rename_i hns
            split at h
            · cases h
            · rename_i rest hrest
              cases h
              have hrl := ih _ _ hrest
              have hgt : start < loopNext t cfg start end2 := by omega
              simp only [List.length_cons]
              omega
    · cases h
      simp

/-- Core invariant of the loop: every iteration record's trimmed text is the
trim of its recorded pre-trim slice, ranges advance, and together the
iteration ranges cover `[start, len)`. -/
theorem chunkLoopGo_main {t : Text} {spans : List (Nat × Nat)} {cfg : Config}
    {tok : Text → Option Nat} (hcs : 1 ≤ cfg.chunkSize) :
    ∀ (fuel start : Nat) (l : List ChunkIter),
    chunkLoopGo t spans cfg tok fuel start = some l →
    (∀ it ∈ l, it.emitted = stripL (slice t it.cstart it.cstop) ∧
      start ≤ it.cstart ∧ it.cstart < it.cstop) ∧
    (∀ p, start ≤ p → p < t.length → ∃ it ∈ l, it.cstart ≤ p ∧ p < it.cstop) := by
  intro fuel
  induction fuel with
  | zero => intro start l h; cases h
  | succ fuel ih =>
    intro start l h
    rw [chunkLoopGo] at h
    split at h
    · rename_i hst
      split at h
      · rename_i hme
        cases h
        constructor
        · intro it hit
          rw [List.mem_singleton] at hit
          subst hit
          exact ⟨rfl, Nat.le_refl _, hst⟩
        · intro p hp1 hp2
          exact ⟨_, List.mem_singleton.mpr rfl, hp1, hp2⟩
      · rename_i hme
        have hmaxEnd : start < min (start + cfg.chunkSize) t.length := by omega
        have hend1 : start < loopEnd1 t spans start (min (start + cfg.chunkSize) t.length) :=
          loopEnd1_gt hmaxEnd
        split at h
        · cases h
        · rename_i end2 chunk2 hta
          have hend2 : start < end2 := tokenAdjust_gt hend1 hta
          have hc2 : chunk2 = stripL (slice t start end2) := by
            rcases tokenAdjust_cases hta with ⟨rfl, rfl⟩ | ⟨-, -, rfl⟩ <;> rfl
          have hnsle : loopNext t cfg start end2 ≤ end2 := loopNext_le
          have hnsgt : start < loopNext t cfg start end2 := loopNext_gt hend2
          split at h
          · rename_i hns
            omega
          · rename_i hns
            split at h
            · cases h
            · rename_i rest hrest
              cases h
              obtain ⟨ih1, ih2⟩ := ih _ _ hrest
              constructor
              · intro it hit
                rcases List.mem_cons.mp hit with rfl | hit
                · exact ⟨hc2, Nat.le_refl _, hend2⟩
                · obtain ⟨he, hs1, hs2⟩ := ih1 it hit
                  exact ⟨he, by omega, hs2⟩
              · intro p hp1 hp2
                by_cases hpn : p < loopNext t cfg start end2
                · exact ⟨_, List.mem_cons_self _ _, hp1, show p < end2 by omega⟩
                · obtain ⟨it, hit, h1, h2⟩ := ih2 p (by omega) hp2
                  exact ⟨it, List.mem_cons_of_mem _ hit, h1, h2⟩
    · cases h
      refine ⟨by simp, ?_⟩
      intro p hp1 hp2
      omega

set_option maxRecDepth 100000 in
set_option maxHeartbeats 4000000 in
/-- Claim C2, as stated, is false: on 40 repetitions of `"ab xxxxxxxxx"`
(480 characters) with `target_size = 10`, `overlap = 0`, the loop runs 80
iterations, while the claimed bound is `480 / 10` plus a small constant
(taking the constant as 30 still leaves `80 > 48 + 30`); the excess grows
linearly with the input because the full-range space fallback can emit
chunks far smaller than `target_size`. -/
theorem claim_C2_counterexample :
    chunkIterCount c2text c2cfg zeroTok = 80 ∧ c2text.length = 480 ∧
    c2text.length / max 1 (c2cfg.chunkSize - c2cfg.overlap) + 30 < 80 ∧
    ¬ iterBoundClaim c2text c2cfg zeroTok 30 := by
  have h80 : chunkIterCount c2text c2cfg zeroTok = 80 := by decide
  refine ⟨h80, by decide, by decide, ?_⟩
  rw [iterBoundClaim, h80]
  decide

/-- Claim C2 (amended): `chunk_text` terminates for every input and config
(its loop advances the cursor by at least one position per iteration), and
the number of loop iterations is at most `len(trimmed text)`; the claimed
sharper bound `len / max(1, target_size - overlap)` + O(1) does not hold. -/
theorem claim_C2 {text : Text} {cfg : Config} {tok : Text → Option Nat}
    {l : List ChunkIter} (h : chunkIters text cfg tok = some l) :
    l.length ≤ (stripL text).length := by
  simp only [chunkIters] at h
  split at h
  · cases h; simp
  · split at h
    · cases h; simp
    · have := chunkLoopGo_len _ _ _ h
      omega

theorem claim_C2_witness :
    chunkIters c9text c9cfg zeroTok = some c9iters ∧
    c9iters.length ≤ (stripL c9text).length :=
  ⟨by decide, @claim_C2 c9text c9cfg zeroTok c9iters (by decide)⟩

/-- Claim C3, as stated, is false: on `"a" ++ 20 spaces ++ "b"` with
`target_size = 10`, `overlap = 0`, the middle loop iteration `[11, 21)`
strips to the empty string and is not emitted, so the whitespace offsets
`11..20` of the trimmed source are inside no emitting iteration's range. -/
theorem claim_C3_counterexample :
    chunkIters c3text c2cfg zeroTok = some c3iters ∧
    ¬ coverageClaim c3text c2cfg zeroTok := by
  constructor
  · decide
  · intro hcl
    exact absurd (hcl 15 (by decide)) (by decide)

/-- Claim C3 (amended): for texts longer than `target_size` (so the loop
runs) and any config with `target_size ≥ 1`, every character offset of the
trimmed source falls inside the pre-trim range `[start, end)` of at least
one loop iteration, and every offset holding a **non-whitespace** character
falls inside the range of an iteration that is emitted as a chunk.  An
all-whitespace window may be a non-emitting iteration, so whitespace runs
need not be covered by emitting iterations. -/
theorem claim_C3 {text : Text} {cfg : Config} {tok : Text → Option Nat}
    {l : List ChunkIter} (hcs : 1 ≤ cfg.chunkSize)
    (hlong : cfg.chunkSize < (stripL text).length)
    (h : chunkIters text cfg tok = some l) :
    ∀ p, p < (stripL text).length →
      (∃ it ∈ l, it.cstart ≤ p ∧ p < it.cstop) ∧
      (isSpaceChar (charAt (stripL text) p) = false →
        ∃ it ∈ l, it.emitted ≠ [] ∧ it.cstart ≤ p ∧ p < it.cstop) := by
  simp only [chunkIters] at h
  rw [if_neg (by intro he; rw [he] at hlong; simp at hlong), if_neg (by omega)] at h
  obtain ⟨h1, h2⟩ := chunkLoopGo_main hcs _ _ _ h
  intro p hp
  refine ⟨h2 p (Nat.zero_le _) hp, ?_⟩
  intro hns
  obtain ⟨it, hit, ha, hb⟩ := h2 p (Nat.zero_le _) hp
  refine ⟨it, hit, ?_, ha, hb⟩
  obtain ⟨he, -, -⟩ := h1 it hit
  rw [he]
  exact stripL_ne_nil (charAt_mem_slice ha hb hp) hns

theorem claim_C3_witness :
    (∃ it ∈ c3iters, it.cstart ≤ 0 ∧ 0 < it.cstop) ∧
    (isSpaceChar (charAt (stripL c3text) 0) = false →
      ∃ it ∈ c3iters, it.emitted ≠ [] ∧ it.cstart ≤ 0 ∧ 0 < it.cstop) :=
  @claim_C3 c3text c2cfg zeroTok c3iters (by decide) (by decide) (by decide) 0 (by decide)

/-! ### Lemmas about the protected-range scanners -/

theorem slice_length (t : Text) (a b : Nat) :
    (slice t a b).length = min (b - a) (t.length - a) := by
  rw [slice, List.length_take, List.length_drop]

theorem slice_head {t : Text} {a b : Nat} {c : Char} {rest : Text}
    (h : slice t a b = c :: rest) : charAt t a = c ∧ a < t.length := by
  have hlen : min (b - a) (t.length - a) = rest.length + 1 := by
    have hc := congrArg List.length h
    rw [slice_length] at hc
    simpa using hc
  have h0 : t[a]? = some c := by
    have h1 : (slice t a b)[0]? = some c := by rw [h]; simp
    rwa [slice, List.getElem?_take, if_pos (by omega), List.getElem?_drop,
      Nat.add_zero] at h1
  refine ⟨?_, by omega⟩
  rw [charAt, List.getD_eq_getElem?_getD, h0]
  rfl

theorem tripleAt_facts {t : Text} {i : Nat} (h : tripleAt t i = true) :
    charAt t i = backquote ∧ i + 3 ≤ t.length := by
  rw [tripleAt] at h
  have he : slice t i (i + 3) = [backquote, backquote, backquote] := eq_of_beq h
  obtain ⟨hc, -⟩ := slice_head he
  have hl := congrArg List.length he
  rw [slice_length] at hl
  simp only [List.length_cons, List.length_nil] at hl
  exact ⟨hc, by omega⟩

theorem schemeEndAt_facts {t : Text} {i p : Nat} (h : schemeEndAt t i = some p) :
    i + 7 ≤ p ∧ p ≤ t.length ∧ charAt t i = 'h' := by
  rw [schemeEndAt] at h
  split at h
  · rename_i hs
    cases h
    obtain ⟨hc, -⟩ := @slice_head t i (i + 7) 'h' ("ttp://".toList) hs
    have hl := congrArg List.length hs
    rw [slice_length] at hl
    have h7 : ("http://".toList).length = 7 := rfl
    rw [h7] at hl
    exact ⟨by omega, by omega, hc⟩
  · split at h
    · rename_i hs
      cases h
      obtain ⟨hc, -⟩ := @slice_head t i (i + 8) 'h' ("ttps://".toList) hs
      have hl := congrArg List.length hs
      rw [slice_length] at hl
      have h8 : ("https://".toList).length = 8 := rfl
      rw [h8] at hl
      exact ⟨by omega, by omega, hc⟩
    · cases h

theorem runEndGo_ge (p : Char → Bool) (t : Text) :
    ∀ (fuel k : Nat), k ≤ runEndGo p t fuel k := by
  intro fuel
  induction fuel with
  | zero => intro k; exact Nat.le_refl _
  | succ fuel ih =>
    intro k
    rw [runEndGo]
    split
    · exact Nat.le_trans (Nat.le_succ k) (ih (k + 1))
    · exact Nat.le_refl _

theorem runEndGo_le (p : Char → Bool) (t : Text) :
    ∀ (fuel k : Nat), k ≤ t.length → runEndGo p t fuel k ≤ t.length := by
  intro fuel
  induction fuel with
  | zero => intro k hk; exact hk
  | succ fuel ih =>
    intro k hk
    rw [runEndGo]
    split
    · rename_i hc
      exact ih (k + 1) (by omega)
    · exact hk

theorem runEnd_ge (p : Char → Bool) (t : Text) (k : Nat) : k ≤ runEnd p t k :=
  runEndGo_ge p t _ k

theorem runEnd_le (p : Char → Bool) (t : Text) (k : Nat) (h : k ≤ t.length) :
    runEnd p t k ≤ t.length :=
  runEndGo_le p t _ k h

theorem findCloseFromGo_some (t : Text) : ∀ (fuel j j' : Nat),
    findCloseFromGo t fuel j = some j' → j ≤ j' ∧ j' + 3 ≤ t.length := by
  intro fuel
  induction fuel with
  | zero => intro j j' h; cases h
  | succ fuel ih =>
    intro j j' h
    rw [findCloseFromGo] at h
    split at h
    · split at h
      · cases h
        rename_i hl _
        exact ⟨Nat.le_refl _, hl⟩
      · obtain ⟨h1, h2⟩ := ih (j + 1) j' h
        exact ⟨by omega, h2⟩
    · cases h

theorem backtrackNonNl_some (t : Text) (low : Nat) :
    ∀ (s0 s : Nat), backtrackNonNl t low s0 = some s → low ≤ s ∧ s ≤ s0 := by
  intro s0
  induction s0 with
  | zero =>
    intro s h
    rw [backtrackNonNl] at h
    split at h
    · rename_i hc
      cases h
      exact ⟨Nat.le_of_eq hc.1, Nat.le_refl _⟩
    · cases h
  | succ s0 ih =>
    intro s h
    rw [backtrackNonNl] at h
    split at h
    · cases h
    · split at h
      · rename_i h1 _
        cases h
        exact ⟨by omega, Nat.le_refl _⟩
      · obtain ⟨hl, hs⟩ := ih s h
        exact ⟨hl, by omega⟩

theorem isBullet_not_space {c : Char} (h : isBullet c = true) :
    isSpaceChar c = false := by
  simp only [isBullet, Bool.or_eq_true, beq_iff_eq] at h
  rcases h with (h | h) | h <;> (subst h; decide)

theorem listMatchAt_some {t : Text} {L e : Nat} (h : listMatchAt t L = some e) :
    L < e ∧ e ≤ t.length ∧
    ∃ q, L ≤ q ∧ q < e ∧ isSpaceChar (charAt t q) = false := by
  simp only [listMatchAt] at h
  split at h
  · rename_i hw
    have hLw : L ≤ runEnd isSpaceChar t L := runEnd_ge _ _ _
    have hbns : isSpaceChar (charAt t (runEnd isSpaceChar t L)) = false :=
      isBullet_not_space hw.2
    have hq1 : runEnd isSpaceChar t L + 1 ≤ runEnd isSpaceChar t (runEnd isSpaceChar t L + 1) :=
      runEnd_ge _ _ _
    have hqlen : runEnd isSpaceChar t (runEnd isSpaceChar t L + 1) ≤ t.length :=
      runEnd_le _ _ _ (by omega)
    split at h
    · cases h
    · rename_i hqp
      split at h
      · rename_i hql
        cases h
        have hge : runEnd isSpaceChar t (runEnd isSpaceChar t L + 1) ≤
            runEnd (fun c => c != '\n') t (runEnd isSpaceChar t (runEnd isSpaceChar t L + 1)) :=
          runEnd_ge _ _ _
        have hle : runEnd (fun c => c != '\n') t
            (runEnd isSpaceChar t (runEnd isSpaceChar t L + 1)) ≤ t.length :=
          runEnd_le _ _ _ (by omega)
        exact ⟨by omega, hle, runEnd isSpaceChar t L, hLw, by omega, hbns⟩
      · rename_i hql
        split at h
        · rename_i s hbt
          cases h
          obtain ⟨hs1, hs2⟩ := backtrackNonNl_some _ _ _ _ hbt
          have hge : s ≤ runEnd (fun c => c != '\n') t s := runEnd_ge _ _ _
          have hle : runEnd (fun c => c != '\n') t s ≤ t.length :=
            runEnd_le _ _ _ (by omega)
          exact ⟨by omega, hle, runEnd isSpaceChar t L, hLw, by omega, hbns⟩
        · cases h
  · cases h

/-- Shape invariant shared by all four scanners' outputs: ranges are
non-empty, stay in bounds, and contain a non-whitespace character. -/
def GoodSpan (t : Text) (r : Nat × Nat) : Prop :=
  r.1 < r.2 ∧ r.2 ≤ t.length ∧
  ∃ q, r.1 ≤ q ∧ q < r.2 ∧ isSpaceChar (charAt t q) = false

theorem codeBlockGo_wf (t : Text) : ∀ (fuel i : Nat),
    ∀ r ∈ codeBlockGo t fuel i, GoodSpan t r := by
  intro fuel
  induction fuel with
  | zero => intro i r hr; cases hr
  | succ fuel ih =>
    intro i r hr
    rw [codeBlockGo] at hr
    split at hr
    · rename_i hi
      split at hr
      · rename_i htr
        split at hr
        · rename_i j hj
          rcases List.mem_cons.mp hr with rfl | hr
          · obtain ⟨hc, h3⟩ := tripleAt_facts htr
            obtain ⟨hj1, hj2⟩ := findCloseFromGo_some t _ _ _ hj
            exact ⟨by omega, hj2, i, Nat.le_refl _, by omega, by rw [hc]; decide⟩
          · exact ih _ r hr
        · exact ih _ r hr
      · exact ih _ r hr
    · cases hr

theorem inlineGo_wf (t : Text) : ∀ (fuel i : Nat),
    ∀ r ∈ inlineGo t fuel i, GoodSpan t r := by
  intro fuel
  induction fuel with
  | zero => intro i r hr; cases hr
  | succ fuel ih =>
    intro i r hr
    simp only [inlineGo] at hr
    split at hr
    · rename_i hi
      split at hr
      · rename_i hbq
        split at hr
        · rename_i hk
          rcases List.mem_cons.mp hr with rfl | hr
          · refine ⟨by omega, by omega, i, Nat.le_refl _, by omega, ?_⟩
            rw [eq_of_beq hbq]
            decide
          · exact ih _ r hr
        · exact ih _ r hr
      · exact ih _ r hr
    · cases hr

theorem urlGo_wf (t : Text) : ∀ (fuel i : Nat),
    ∀ r ∈ urlGo t fuel i, GoodSpan t r := by
  intro fuel
  induction fuel with
  | zero => intro i r hr; cases hr
  | succ fuel ih =>
    intro i r hr
    simp only [urlGo] at hr
    split at hr
    · rename_i hi
      split at hr
      · rename_i p hp
        split at hr
        · rename_i hpe
          rcases List.mem_cons.mp hr with rfl | hr
          · obtain ⟨hp1, hp2, hph⟩ := schemeEndAt_facts hp
            have hle : runEnd urlBodyChar t p ≤ t.length := runEnd_le _ _ _ hp2
            exact ⟨by omega, hle, i, Nat.le_refl _, by omega, by rw [hph]; decide⟩
          · exact ih _ r hr
        · exact ih _ r hr
      · rename_i hp
        split at hr
        · rename_i hlt
          split at hr
          · rename_i p hp2
            obtain ⟨hq1, hq2, -⟩ := schemeEndAt_facts hp2
            split at hr
            · rename_i hpe1
              split at hr
              · rename_i hgt
                rcases List.mem_cons.mp hr with rfl | hr
                · exact ⟨by omega, by omega, i, Nat.le_refl _, by omega,
                    by rw [eq_of_beq hlt]; decide⟩
                · exact ih _ r hr
              · split at hr
                · rename_i hpipe
                  split at hr
                  · rename_i hlab
                    rcases List.mem_cons.mp hr with rfl | hr
                    · exact ⟨by omega, by omega, i, Nat.le_refl _, by omega,
                        by rw [eq_of_beq hlt]; decide⟩
                    · exact ih _ r hr
                  · exact ih _ r hr
                · exact ih _ r hr
            · exact ih _ r hr
          · exact ih _ r hr
        · exact ih _ r hr
    · cases hr

theorem listGo_wf (t : Text) : ∀ (fuel i : Nat),
    ∀ r ∈ listGo t fuel i, GoodSpan t r := by
  intro fuel
  induction fuel with
  | zero => intro i r hr; cases hr
  | succ fuel ih =>
    intro i r hr
    rw [listGo] at hr
    split at hr
    · rename_i hi
      split at hr
      · split at hr
        · rename_i e hm
          rcases List.mem_cons.mp hr with rfl | hr
          · obtain ⟨h1, h2, q, hq1, hq2, hq3⟩ := listMatchAt_some hm
            exact ⟨h1, h2, q, hq1, hq2, hq3⟩
          · exact ih _ r hr
        · exact ih _ r hr
      · exact ih _ r hr
    · cases hr

theorem rawProtected_wf (t : Text) : ∀ r ∈ rawProtected t, GoodSpan t r := by
  intro r hr
  rw [rawProtected] at hr
  rcases List.mem_append.mp hr with hr | hr
  · rcases List.mem_append.mp hr with hr | hr
    · rcases List.mem_append.mp hr with hr | hr
      · exact codeBlockGo_wf t _ _ r hr
      · exact inlineGo_wf t _ _ r hr
    · exact urlGo_wf t _ _ r hr
  · exact listGo_wf t _ _ r hr

/-! ### Lemmas about the sort-and-coalesce merge -/

theorem mergeRanges_start_le : ∀ (rest : List (Nat × Nat)) (cur : Nat × Nat),
    List.Pairwise spanLE (cur :: rest) →
    ∀ x ∈ mergeRanges cur rest, cur.1 ≤ x.1 := by
  intro rest
  induction rest with
  | nil =>
    intro cur _ x hx
    rw [mergeRanges, List.mem_singleton] at hx
    subst hx
    exact Nat.le_refl _
  | cons hd tl ih =>
    intro cur hp x hx
    obtain ⟨s, e⟩ := hd
    rw [List.pairwise_cons] at hp
    rw [mergeRanges] at hx
    split at hx
    · have hp2 : List.Pairwise spanLE ((cur.1, max cur.2 e) :: tl) := by
        rw [List.pairwise_cons]
        refine ⟨fun y hy => ?_, (List.pairwise_cons.mp hp.2).2⟩
        exact hp.1 y (List.mem_cons_of_mem _ hy)
      exact ih (cur.1, max cur.2 e) hp2 x hx
    · rcases List.mem_cons.mp hx with rfl | hx
      · exact Nat.le_refl _
      · have hle : cur.1 ≤ s := hp.1 (s, e) (List.mem_cons_self _ _)
        exact Nat.le_trans hle (ih (s, e) hp.2 x hx)

theorem mergeRanges_sep : ∀ (rest : List (Nat × Nat)) (cur : Nat × Nat),
    List.Pairwise spanLE (cur :: rest) →
    (∀ x ∈ cur :: rest, x.1 < x.2) →
    List.Pairwise (fun a b => a.2 < b.1) (mergeRanges cur rest) := by
  intro rest
  induction rest with
  | nil =>
    intro cur _ _
    rw [mergeRanges]
    exact List.pairwise_singleton _ _
  | cons hd tl ih =>
    intro cur hp hwf
    obtain ⟨s, e⟩ := hd
    rw [List.pairwise_cons] at hp
    rw [mergeRanges]
    split
    · rename_i hm
      refine ih (cur.1, max cur.2 e) ?_ ?_
      · rw [List.pairwise_cons]
        exact ⟨fun y hy => hp.1 y (List.mem_cons_of_mem _ hy),
          (List.pairwise_cons.mp hp.2).2⟩
      · intro x hx
        rcases List.mem_cons.mp hx with rfl | hx
        · have h1 := hwf cur (List.mem_cons_self _ _)
          simp only
          omega
        · exact hwf x (List.mem_cons_of_mem _ (List.mem_cons_of_mem _ hx))
    · rename_i hm
      rw [List.pairwise_cons]
      constructor
      · intro x hx
        have hsx : s ≤ x.1 := mergeRanges_start_le tl (s, e) hp.2 x hx
        omega
      · exact ih (s, e) hp.2 (fun x hx => hwf x (List.mem_cons_of_mem _ hx))

theorem mergeRanges_wfb : ∀ (rest : List (Nat × Nat)) (cur : Nat × Nat) (N : Nat),
    (∀ x ∈ cur :: rest, x.1 < x.2 ∧ x.2 ≤ N) →
    ∀ x ∈ mergeRanges cur rest, x.1 < x.2 ∧ x.2 ≤ N := by
  intro rest
  induction rest with
  | nil =>
    intro cur N hwf x hx
    rw [mergeRanges, List.mem_singleton] at hx
    subst hx
    exact hwf x (List.mem_cons_self _ _)
  | cons hd tl ih =>
    intro cur N hwf x hx
    obtain ⟨s, e⟩ := hd
    rw [mergeRanges] at hx
    split at hx
    · refine ih (cur.1, max cur.2 e) N ?_ x hx
      intro y hy
      rcases List.mem_cons.mp hy with rfl | hy
      · have h1 := hwf cur (List.mem_cons_self _ _)
        have h2 := hwf (s, e) (List.mem_cons_of_mem _ (List.mem_cons_self _ _))
        simp only at h1 h2 ⊢
        omega
      · exact hwf y (List.mem_cons_of_mem _ (List.mem_cons_of_mem _ hy))
    · rcases List.mem_cons.mp hx with rfl | hx
      · exact hwf x (List.mem_cons_self _ _)
      · exact ih (s, e) N (fun y hy => hwf y (List.mem_cons_of_mem _ hy)) x hx

theorem mergeRanges_covers : ∀ (rest : List (Nat × Nat)) (cur : Nat × Nat),
    List.Pairwise spanLE (cur :: rest) →
    ∀ r ∈ cur :: rest, ∃ m ∈ mergeRanges cur rest, m.1 ≤ r.1 ∧ r.2 ≤ m.2 := by
  intro rest
  induction rest with
  | nil =>
    intro cur _ r hr
    rw [List.mem_singleton] at hr
    subst hr
    exact ⟨r, by rw [mergeRanges]; exact List.mem_singleton.mpr rfl,
      Nat.le_refl _, Nat.le_refl _⟩
  | cons hd tl ih =>
    intro cur hp r hr
    obtain ⟨s, e⟩ := hd
    rw [List.pairwise_cons] at hp
    rw [mergeRanges]
    split
    · rename_i hm
      have hp2 : List.Pairwise spanLE ((cur.1, max cur.2 e) :: tl) := by
        rw [List.pairwise_cons]
        exact ⟨fun y hy => hp.1 y (List.mem_cons_of_mem _ hy),
          (List.pairwise_cons.mp hp.2).2⟩
      rcases List.mem_cons.mp hr with heq | hr
      · rw [heq]
        obtain ⟨m, hm1, hm2, hm3⟩ :=
          ih (cur.1, max cur.2 e) hp2 (cur.1, max cur.2 e) (List.mem_cons_self _ _)
        refine ⟨m, hm1, ?_, ?_⟩
        · exact hm2
        · simp only at hm3
          omega
      · rcases List.mem_cons.mp hr with heq | hr
        · rw [heq]
          obtain ⟨m, hm1, hm2, hm3⟩ :=
            ih (cur.1, max cur.2 e) hp2 (cur.1, max cur.2 e) (List.mem_cons_self _ _)
          have hcs := hp.1 (s, e) (List.mem_cons_self _ _)
          simp only [spanLE] at hcs
          refine ⟨m, hm1, by simp only at hm2 ⊢; omega, by simp only at hm3 ⊢; omega⟩
        · exact ih (cur.1, max cur.2 e) hp2 r (List.mem_cons_of_mem _ hr)
    · rename_i hm
      rcases List.mem_cons.mp hr with heq | hr
      · rw [heq]
        exact ⟨cur, List.mem_cons_self _ _, Nat.le_refl _, Nat.le_refl _⟩
      · obtain ⟨m, hm1, hm2, hm3⟩ := ih (s, e) hp.2 r hr
        exact ⟨m, List.mem_cons_of_mem _ hm1, hm2, hm3⟩

theorem mergeRanges_contains : ∀ (rest : List (Nat × Nat)) (cur : Nat × Nat),
    List.Pairwise spanLE (cur :: rest) →
    ∀ m ∈ mergeRanges cur rest, ∃ r ∈ cur :: rest, m.1 ≤ r.1 ∧ r.2 ≤ m.2 := by
  intro rest
  induction rest with
  | nil =>
    intro cur _ m hm
    rw [mergeRanges, List.mem_singleton] at hm
    subst hm
    exact ⟨m, List.mem_cons_self _ _, Nat.le_refl _, Nat.le_refl _⟩
  | cons hd tl ih =>
    intro cur hp m hm
    obtain ⟨s, e⟩ := hd
    rw [List.pairwise_cons] at hp
    rw [mergeRanges] at hm
    split at hm
    · rename_i hmg
      have hp2 : List.Pairwise spanLE ((cur.1, max cur.2 e) :: tl) := by
        rw [List.pairwise_cons]
        exact ⟨fun y hy => hp.1 y (List.mem_cons_of_mem _ hy),
          (List.pairwise_cons.mp hp.2).2⟩
      obtain ⟨r, hr, hr1, hr2⟩ := ih (cur.1, max cur.2 e) hp2 m hm
      rcases List.mem_cons.mp hr with rfl | hr
      · rcases Nat.le_total cur.2 e with hce | hce
        · refine ⟨(s, e), List.mem_cons_of_mem _ (List.mem_cons_self _ _), ?_, ?_⟩
          · have hcs : cur.1 ≤ s := hp.1 (s, e) (List.mem_cons_self _ _)
            simp only at hr1 ⊢
            omega
          · simp only at hr2 ⊢
            omega
        · refine ⟨cur, List.mem_cons_self _ _, ?_, ?_⟩
          · simpa using hr1
          · simp only at hr2 ⊢
            omega
      · exact ⟨r, List.mem_cons_of_mem _ (List.mem_cons_of_mem _ hr), hr1, hr2⟩
    · rcases List.mem_cons.mp hm with rfl | hm
      · exact ⟨m, List.mem_cons_self _ _, Nat.le_refl _, Nat.le_refl _⟩
      · obtain ⟨r, hr, hr1, hr2⟩ := ih (s, e) hp.2 m hm
        exact ⟨r, List.mem_cons_of_mem _ hr, hr1, hr2⟩

theorem sortedSpans_pairwise (l : List (Nat × Nat)) :
    List.Pairwise spanLE (sortedSpans l) := by
  have h := List.sorted_insertionSort spanLE l
  exact h

theorem sortedSpans_mem (l : List (Nat × Nat)) (x : Nat × Nat) :
    x ∈ sortedSpans l ↔ x ∈ l :=
  (List.perm_insertionSort spanLE l).mem_iff

/-! ### `_find_protected_ranges`: the packaged facts -/

theorem fpr_sep (t : Text) :
    List.Pairwise (fun a b => a.2 < b.1) (findProtectedRanges t) := by
  rw [findProtectedRanges]
  cases hs : sortedSpans (rawProtected t) with
  | nil => exact List.Pairwise.nil
  | cons r rest =>
    refine mergeRanges_sep rest r (hs ▸ sortedSpans_pairwise (rawProtected t)) ?_
    intro x hx
    have hx2 : x ∈ rawProtected t := (sortedSpans_mem _ x).mp (hs ▸ hx)
    exact (rawProtected_wf t x hx2).1

theorem fpr_wf (t : Text) :
    ∀ m ∈ findProtectedRanges t, m.1 < m.2 ∧ m.2 ≤ t.length := by
  rw [findProtectedRanges]
  cases hs : sortedSpans (rawProtected t) with
  | nil => intro m hm; cases hm
  | cons r rest =>
    refine mergeRanges_wfb rest r t.length ?_
    intro x hx
    have hx2 : x ∈ rawProtected t := (sortedSpans_mem _ x).mp (hs ▸ hx)
    exact ⟨(rawProtected_wf t x hx2).1, (rawProtected_wf t x hx2).2.1⟩

theorem fpr_covers (t : Text) : ∀ r ∈ rawProtected t,
    ∃ m ∈ findProtectedRanges t, m.1 ≤ r.1 ∧ r.2 ≤ m.2 := by
  intro r hr
  rw [findProtectedRanges]
  cases hs : sortedSpans (rawProtected t) with
  | nil =>
    have : r ∈ sortedSpans (rawProtected t) := (sortedSpans_mem _ r).mpr hr
    rw [hs] at this
    cases this
  | cons r0 rest =>
    refine mergeRanges_covers rest r0 (hs ▸ sortedSpans_pairwise (rawProtected t)) r ?_
    rw [← hs]
    exact (sortedSpans_mem _ r).mpr hr

theorem fpr_nonspace (t : Text) : ∀ m ∈ findProtectedRanges t,
    ∃ q, m.1 ≤ q ∧ q < m.2 ∧ isSpaceChar (charAt t q) = false := by
  rw [findProtectedRanges]
  cases hs : sortedSpans (rawProtected t) with
  | nil => intro m hm; cases hm
  | cons r0 rest =>
    intro m hm
    obtain ⟨r, hr, h1, h2⟩ :=
      mergeRanges_contains rest r0 (hs ▸ sortedSpans_pairwise (rawProtected t)) m hm
    have hr2 : r ∈ rawProtected t := (sortedSpans_mem _ r).mp (hs ▸ hr)
    obtain ⟨-, -, q, hq1, hq2, hq3⟩ := rawProtected_wf t r hr2
    exact ⟨q, by omega, by omega, hq3⟩

/-- Claim C8: for every input text, the sequence returned by
`_find_protected_ranges` is sorted and pairwise disjoint — each range's
start is strictly greater than the previous range's end — and every raw
match of any of the four pattern classes (fenced code block, inline code,
URL, list-item line, in the order the code collects them) is contained in
some returned range. -/
theorem claim_C8 (t : Text) :
    List.Pairwise (fun a b => a.2 < b.1) (findProtectedRanges t) ∧
    ∀ r ∈ rawProtected t, ∃ m ∈ findProtectedRanges t, m.1 ≤ r.1 ∧ r.2 ≤ m.2 :=
  ⟨fpr_sep t, fpr_covers t⟩

theorem claim_C8_witness :
    (2, 10) ∈ rawProtected c8text ∧
    ∃ m ∈ findProtectedRanges c8text, m.1 ≤ 2 ∧ 10 ≤ m.2 :=
  ⟨by decide, (claim_C8 c8text).2 (2, 10) (by decide)⟩

/-! ### The no-split invariant of the loop -/

theorem loopNext_eq_of_ov0 {t : Text} {cfg : Config} {start end2 : Nat}
    (hov : cfg.overlap = 0) : loopNext t cfg start end2 = end2 := by
  have hn : nextStartCalc t cfg start end2 = end2 := by
    rw [nextStartCalc, if_neg (by simp [hov])]
  rw [loopNext, hn]
  split <;> rfl

theorem chunkLoopGo_no_split {t : Text} {spans : List (Nat × Nat)} {cfg : Config}
    {tok : Text → Option Nat}
    (hcs : 1 ≤ cfg.chunkSize) (hov : cfg.overlap = 0)
    (hp : List.Pairwise (fun a b => a.2 < b.1) spans)
    (hwf : ∀ sp ∈ spans, sp.1 < sp.2 ∧ sp.2 ≤ t.length) :
    ∀ (fuel start : Nat) (l : List ChunkIter),
    chunkLoopGo t spans cfg tok fuel start = some l →
    (∀ sp ∈ spans, ¬(sp.1 < start ∧ start < sp.2)) →
    ∀ it ∈ l, ∀ sp ∈ spans,
      ¬(sp.1 < it.cstart ∧ it.cstart < sp.2) ∧
      ¬(sp.1 < it.cstop ∧ it.cstop < sp.2) := by
  intro fuel
  induction fuel with
  | zero => intro start l h; cases h
  | succ fuel ih =>
    intro start l h hstart
    rw [chunkLoopGo] at h
    split at h
    · rename_i hst
      split at h
      · rename_i hme
        cases h
        intro it hit sp hsp
        rw [List.mem_singleton] at hit
        subst hit
        refine ⟨hstart sp hsp, ?_⟩
        have := (hwf sp hsp).2
        simp only
        intro hcl
        omega
      · rename_i hme
        have hmaxEnd : start < min (start + cfg.chunkSize) t.length := by omega
        split at h
        · cases h
        · rename_i end2 chunk2 hta
          have hend1eq : loopEnd1 t spans start (min (start + cfg.chunkSize) t.length) =
              findBreakPoint t start (min (start + cfg.chunkSize) t.length) spans :=
            loopEnd1_eq hst hmaxEnd
          have hb2 : ∀ sp ∈ spans, ¬(sp.1 < end2 ∧ end2 < sp.2) := by
            rcases tokenAdjust_cases hta with ⟨heq, -⟩ | ⟨-, heq, -⟩
            · rw [heq, hend1eq]
              exact findBreakPoint_boundary hp hwf
            · rw [heq]
              exact findBreakPoint_boundary hp hwf
          have hend2 : start < end2 :=
            tokenAdjust_gt (loopEnd1_gt hmaxEnd) hta
          have hnseq : loopNext t cfg start end2 = end2 := loopNext_eq_of_ov0 hov
          split at h
          · rename_i hns
            rw [hnseq] at hns
            omega
          · rename_i hns
            split at h
            · cases h
            · rename_i rest hrest
              cases h
              intro it hit sp hsp
              rcases List.mem_cons.mp hit with rfl | hit
              · exact ⟨hstart sp hsp, hb2 sp hsp⟩
              · rw [hnseq] at hrest
                exact ih end2 rest hrest hb2 it hit sp hsp
    · cases h
      intro it hit
      cases hit

/-- Claim C1, as stated, is false with a non-zero overlap: on
`"XXXX `a b` YYYY"` with `target_size = 10`, `overlap = 5`, the
overlap-adjusted start of the second chunk is offset 8, strictly inside the
inline-code span `[5, 10)` (the overlap scan for a space has no
protected-range check). -/
theorem claim_C1_counterexample : ¬ noSplitClaim c1text c1cfg zeroTok := by
  intro hcl
  have h := ((hcl (5, 10) (by decide)).2 ⟨8, 15, stripL (slice (stripL c1text) 8 15)⟩
    (by decide) (by decide)).1
  exact h (by decide)

/-- Claim C1 (amended): with `overlap = 0` (any `target_size ≥ 1`, for texts
whose trim is longer than `target_size` so the loop runs), every protected
span of the merged span set is fully contained in some emitting loop
iteration's pre-trim range, and no iteration's range starts or ends strictly
inside a span's interior.  With `overlap > 0` the overlap-adjusted start can
land inside a span, as the counterexample shows. -/
theorem claim_C1 {text : Text} {cfg : Config} {tok : Text → Option Nat}
    {l : List ChunkIter} (hcs : 1 ≤ cfg.chunkSize) (hov : cfg.overlap = 0)
    (hlong : cfg.chunkSize < (stripL text).length)
    (h : chunkIters text cfg tok = some l) :
    ∀ sp ∈ findProtectedRanges (stripL text),
      (∃ it ∈ l, it.emitted ≠ [] ∧ it.cstart ≤ sp.1 ∧ sp.2 ≤ it.cstop) ∧
      (∀ it ∈ l, ¬(sp.1 < it.cstart ∧ it.cstart < sp.2) ∧
        ¬(sp.1 < it.cstop ∧ it.cstop < sp.2)) := by
  simp only [chunkIters] at h
  rw [if_neg (by intro he; rw [he] at hlong; simp at hlong), if_neg (by omega)] at h
  have hsep := fpr_sep (stripL text)
  have hwf := fpr_wf (stripL text)
  have hns := chunkLoopGo_no_split hcs hov hsep hwf _ 0 l h
    (by rintro sp hsp ⟨h1, h2⟩; omega)
  obtain ⟨h1, h2⟩ := chunkLoopGo_main hcs _ 0 l h
  intro sp hsp
  refine ⟨?_, fun it hit => hns it hit sp hsp⟩
  obtain ⟨hw1, hw2⟩ := hwf sp hsp
  obtain ⟨it, hit, ha, hb⟩ := h2 sp.1 (Nat.zero_le _) (by omega)
  have hbnd := (hns it hit sp hsp).2
  have hcontain : sp.2 ≤ it.cstop := by
    rcases Nat.lt_or_ge it.cstop sp.2 with hlt | hge
    · exact absurd ⟨by omega, hlt⟩ hbnd
    · exact hge
  obtain ⟨q, hq1, hq2, hq3⟩ := fpr_nonspace (stripL text) sp hsp
  obtain ⟨hes, -, -⟩ := h1 it hit
  refine ⟨it, hit, ?_, ha, hcontain⟩
  rw [hes]
  exact stripL_ne_nil (charAt_mem_slice (by omega) (by omega) (by omega)) hq3

theorem claim_C1_witness :
    (5, 10) ∈ findProtectedRanges (stripL c1text) ∧
    ((∃ it ∈ c1iters, it.emitted ≠ [] ∧ it.cstart ≤ 5 ∧ 10 ≤ it.cstop) ∧
      (∀ it ∈ c1iters, ¬(5 < it.cstart ∧ it.cstart < 10) ∧
        ¬(5 < it.cstop ∧ it.cstop < 10))) :=
  ⟨by decide, @claim_C1 c1text c1cfg0 zeroTok c1iters (by decide) (by decide)
    (by decide) (by decide) (5, 10) (by decide)⟩

/-! ### The small-chunk merger invariant -/

theorem mergerOK_symm {m k : Nat} {a b : Text} (h : mergerOK m k a b) :
    mergerOK m k b a := by
  intro h1 h2
  have := h h2 h1
  omega

theorem mergerOK_grow_left {m k : Nat} {a a' b : Text} (h : mergerOK m k a b)
    (hl : a.length ≤ a'.length) : mergerOK m k a' b := by
  intro h1 h2
  have := h (by omega) h2
  omega

theorem chain_grow_head {m k : Nat} {x y : Text} {l : List Text}
    (h : List.Chain' (mergerOK m k) (x :: l)) (hl : x.length ≤ y.length) :
    List.Chain' (mergerOK m k) (y :: l) := by
  rw [List.chain'_cons'] at h ⊢
  exact ⟨fun z hz => mergerOK_grow_left (h.1 z hz) hl, h.2⟩

theorem mergePass1_chain (m k : Nat) : ∀ (rest : List Text) (cur : Text),
    List.Chain' (mergerOK m k) (mergePass1 m k cur rest) ∧
    ∀ h ∈ (mergePass1 m k cur rest).head?, cur.length ≤ h.length := by
  intro rest
  induction rest with
  | nil =>
    intro cur
    rw [mergePass1]
    split
    · exact ⟨List.chain'_nil, by simp⟩
    · refine ⟨List.chain'_singleton _, ?_⟩
      intro h hm
      simp only [List.head?_cons, Option.mem_def, Option.some.injEq] at hm
      rw [hm]
  | cons next rest ih =>
    intro cur
    have hmerge : ∀ h ∈ (mergePass1 m k (cur ++ ' ' :: next) rest).head?,
        cur.length ≤ h.length := by
      intro h hm
      have := (ih (cur ++ ' ' :: next)).2 h hm
      rw [List.length_append, List.length_cons] at this
      omega
    have hflushOne : ∀ h ∈ (mergePass1 m k next rest).head?, next.length ≤ h.length :=
      (ih next).2
    rw [mergePass1]
    split
    · rename_i hsmall
      split
      · exact ⟨(ih (cur ++ ' ' :: next)).1, hmerge⟩
      · rename_i hfit
        refine ⟨?_, ?_⟩
        · rw [List.chain'_cons']
          refine ⟨fun y hy => ?_, (ih next).1⟩
          have hny := hflushOne y hy
          intro h1 h2
          omega
        · intro h hm
          simp only [List.head?_cons, Option.mem_def, Option.some.injEq] at hm
          rw [hm]
    · rename_i hbig
      split
      · rename_i hnsmall
        split
        · exact ⟨(ih (cur ++ ' ' :: next)).1, hmerge⟩
        · refine ⟨?_, ?_⟩
          · rw [List.chain'_cons']
            refine ⟨fun y hy _ _ => absurd ‹cur.length < m› hbig, (ih next).1⟩
          · intro h hm
            simp only [List.head?_cons, Option.mem_def, Option.some.injEq] at hm
            rw [hm]
      · refine ⟨?_, ?_⟩
        · rw [List.chain'_cons']
          refine ⟨fun y hy _ _ => absurd ‹cur.length < m› hbig, (ih next).1⟩
        · intro h hm
          simp only [List.head?_cons, Option.mem_def, Option.some.injEq] at hm
          rw [hm]

theorem chain_flip_self {m k : Nat} {l : List Text}
    (h : List.Chain' (mergerOK m k) l) : List.Chain' (flip (mergerOK m k)) l :=
  h.imp (fun _ _ hab => mergerOK_symm hab)

theorem mergeLastPass_chain {m k : Nat} {l : List Text}
    (h : List.Chain' (mergerOK m k) l) :
    List.Chain' (mergerOK m k) (mergeLastPass m k l) := by
  rw [mergeLastPass]
  split
  · rename_i lastC prev rest heq
    split
    · have hrev : List.Chain' (mergerOK m k) (lastC :: prev :: rest) := by
        rw [← heq, List.chain'_reverse]
        exact chain_flip_self h
      have htail : List.Chain' (mergerOK m k) (prev :: rest) :=
        (List.chain'_cons'.mp hrev).2
      have hgrow : List.Chain' (mergerOK m k) ((prev ++ ' ' :: lastC) :: rest) :=
        chain_grow_head htail (by rw [List.length_append]; omega)
      rw [List.chain'_reverse]
      exact chain_flip_self hgrow
    · exact h
  · exact h

theorem mergeFirstPass_chain {m k : Nat} {l : List Text}
    (h : List.Chain' (mergerOK m k) l) :
    List.Chain' (mergerOK m k) (mergeFirstPass m k l) := by
  rcases l with - | ⟨a, - | ⟨b, rest⟩⟩
  · exact h
  · exact h
  · rw [mergeFirstPass]
    split
    · have htail : List.Chain' (mergerOK m k) (b :: rest) :=
        (List.chain'_cons'.mp h).2
      exact chain_grow_head htail (by rw [List.length_append, List.length_cons]; omega)
    · exact h

theorem mergeSmallChunks_chain (chunks : List Text) (m mx : Nat) :
    List.Chain' (mergerOK m (mx * 3 / 2)) (mergeSmallChunks chunks m mx) := by
  rcases chunks with - | ⟨c, - | ⟨c2, rest⟩⟩
  · exact List.chain'_nil
  · exact List.chain'_singleton _
  · exact mergeFirstPass_chain
      (mergeLastPass_chain (mergePass1_chain m (mx * 3 / 2) (c2 :: rest) c).1)

theorem chain_mergerOK_zero (k : Nat) (l : List Text) :
    List.Chain' (mergerOK 0 k) l := by
  induction l with
  | nil => exact List.chain'_nil
  | cons a l ih =>
    rw [List.chain'_cons']
    exact ⟨fun y _ h1 => absurd h1 (by omega), ih⟩

theorem chain_of_short {R : Text → Text → Prop} {l : List Text}
    (h : l.length ≤ 1) : List.Chain' R l := by
  rcases l with - | ⟨a, - | ⟨b, l⟩⟩
  · exact List.chain'_nil
  · exact List.chain'_singleton _
  · simp at h

theorem chunkText_chain {text : Text} {cfg : Config} {tok : Text → Option Nat}
    {cs : List Text} (h : chunkText text cfg tok = some cs) :
    List.Chain' (mergerOK cfg.minChunkSize (cfg.chunkSize * 3 / 2)) cs := by
  simp only [chunkText] at h
  split at h
  · cases h; exact List.chain'_nil
  · split at h
    · cases h; exact List.chain'_singleton _
    · split at h
      · cases h
      · rename_i iters hloop
        cases h
        split
        · exact mergeSmallChunks_chain _ _ _
        · rename_i hcond
          rcases Nat.eq_zero_or_pos cfg.minChunkSize with hz | hpos
          · rw [hz]
            exact chain_mergerOK_zero _ _
          · have hlen : ((iters.map ChunkIter.emitted).filter (fun c => !c.isEmpty)).length ≤ 1 := by
              by_contra hgt
              exact hcond ⟨hpos, by omega⟩
            exact chain_of_short hlen

/-- Claim C6: in the list returned by `_merge_small_chunks`, no two adjacent
output chunks are both shorter than `min_chunk_size` unless joining them
with one space would exceed `int(1.5 * target_size)` (first conjunct, for
every input chunk list); consequently the same holds for the final output of
`chunk_text` whenever `min_chunk_size > 0` (second conjunct). -/
theorem claim_C6 :
    (∀ (chunks : List Text) (m mx : Nat),
      List.Chain' (mergerOK m (mx * 3 / 2)) (mergeSmallChunks chunks m mx)) ∧
    (∀ (text : Text) (cfg : Config) (tok : Text → Option Nat) (cs : List Text),
      0 < cfg.minChunkSize → chunkText text cfg tok = some cs →
      List.Chain' (mergerOK cfg.minChunkSize (cfg.chunkSize * 3 / 2)) cs) :=
  ⟨fun chunks m mx => mergeSmallChunks_chain chunks m mx,
   fun _ _ _ _ _ h => chunkText_chain h⟩

theorem claim_C6_witness :
    List.Chain' (mergerOK 5 15) (mergeSmallChunks ["aa".toList, "bb".toList] 5 10) ∧
    (0 < c9cfg.minChunkSize ∧
      List.Chain' (mergerOK c9cfg.minChunkSize (c9cfg.chunkSize * 3 / 2)) [c9merged]) :=
  ⟨claim_C6.1 ["aa".toList, "bb".toList] 5 10,
   by decide,
   claim_C6.2 c9text c9cfg zeroTok [c9merged] (by decide) (by decide)⟩

/-! ### Chunk shape: non-empty, trimmed, substrings -/

theorem subInfix_trans {a b c : Text} (h1 : a <:+: b) (h2 : b <:+: c) : a <:+: c := by
  obtain ⟨s1, u1, e1⟩ := h1
  obtain ⟨s2, u2, e2⟩ := h2
  refine ⟨s2 ++ s1, u1 ++ u2, ?_⟩
  rw [← e2, ← e1]
  simp [List.append_assoc]

theorem mergePass1_good (m k : Nat) : ∀ (rest : List Text) (cur : Text),
    cur ≠ [] → stripL cur = cur →
    (∀ c ∈ rest, c ≠ [] ∧ stripL c = c) →
    ∀ c ∈ mergePass1 m k cur rest, c ≠ [] ∧ stripL c = c := by
  intro rest
  induction rest with
  | nil =>
    intro cur hne hst _ c hc
    rw [mergePass1, if_neg hne, List.mem_singleton] at hc
    subst hc
    exact ⟨hne, hst⟩
  | cons next rest ih =>
    intro cur hne hst hrest c hc
    have hnext := hrest next (List.mem_cons_self _ _)
    have hrest2 : ∀ x ∈ rest, x ≠ [] ∧ stripL x = x :=
      fun x hx => hrest x (List.mem_cons_of_mem _ hx)
    have hmerged : (cur ++ ' ' :: next) ≠ [] := by simp
    have hmergedSt : stripL (cur ++ ' ' :: next) = cur ++ ' ' :: next :=
      stripL_append_one hst hnext.2 hne hnext.1
    rw [mergePass1] at hc
    split at hc
    · split at hc
      · exact ih (cur ++ ' ' :: next) hmerged hmergedSt hrest2 c hc
      · rcases List.mem_cons.mp hc with heq | hc
        · rw [heq]; exact ⟨hne, hst⟩
        · exact ih next hnext.1 hnext.2 hrest2 c hc
    · split at hc
      · split at hc
        · exact ih (cur ++ ' ' :: next) hmerged hmergedSt hrest2 c hc
        · rcases List.mem_cons.mp hc with heq | hc
          · rw [heq]; exact ⟨hne, hst⟩
          · exact ih next hnext.1 hnext.2 hrest2 c hc
      · rcases List.mem_cons.mp hc with heq | hc
        · rw [heq]; exact ⟨hne, hst⟩
        · exact ih next hnext.1 hnext.2 hrest2 c hc

theorem mergeLastPass_good {m k : Nat} {l : List Text}
    (hl : ∀ c ∈ l, c ≠ [] ∧ stripL c = c) :
    ∀ c ∈ mergeLastPass m k l, c ≠ [] ∧ stripL c = c := by
  rw [mergeLastPass]
  split
  · rename_i lastC prev rest heq
    split
    · intro c hc
      rw [List.mem_reverse] at hc
      have hmem : ∀ x ∈ lastC :: prev :: rest, x ∈ l := by
        intro x hx
        rw [← List.mem_reverse, heq]
        exact hx
      rcases List.mem_cons.mp hc with heq2 | hc
      · obtain ⟨hp1, hp2⟩ := hl prev (hmem prev (by simp))
        obtain ⟨hl1, hl2⟩ := hl lastC (hmem lastC (by simp))
        rw [heq2]
        exact ⟨by simp, stripL_append_one hp2 hl2 hp1 hl1⟩
      · exact hl c (hmem c (by simp [hc]))
    · exact hl
  · exact hl

theorem mergeFirstPass_good {m k : Nat} {l : List Text}
    (hl : ∀ c ∈ l, c ≠ [] ∧ stripL c = c) :
    ∀ c ∈ mergeFirstPass m k l, c ≠ [] ∧ stripL c = c := by
  rcases l with - | ⟨a, - | ⟨b, rest⟩⟩
  · exact hl
  · exact hl
  · rw [mergeFirstPass]
    split
    · intro c hc
      rcases List.mem_cons.mp hc with heq | hc
      · obtain ⟨ha1, ha2⟩ := hl a (by simp)
        obtain ⟨hb1, hb2⟩ := hl b (by simp)
        rw [heq]
        exact ⟨by simp, stripL_append_one ha2 hb2 ha1 hb1⟩
      · exact hl c (List.mem_cons_of_mem _ (List.mem_cons_of_mem _ hc))
    · exact hl

theorem mergeSmallChunks_good {chunks : List Text} {m mx : Nat}
    (hl : ∀ c ∈ chunks, c ≠ [] ∧ stripL c = c) :
    ∀ c ∈ mergeSmallChunks chunks m mx, c ≠ [] ∧ stripL c = c := by
  rcases chunks with - | ⟨c0, - | ⟨c2, rest⟩⟩
  · exact hl
  · exact hl
  · exact mergeFirstPass_good (mergeLastPass_good
      (mergePass1_good m (mx * 3 / 2) (c2 :: rest) c0
        (hl c0 (by simp)).1 (hl c0 (by simp)).2
        (fun x hx => hl x (List.mem_cons_of_mem _ hx))))

theorem chunkText_loop_chunks {text : Text} {cfg : Config} {tok : Text → Option Nat}
    {cs : List Text} (h : chunkText text cfg tok = some cs) :
    (cs = [stripL text] ∧ stripL text ≠ []) ∨ cs = [] ∨
    ∃ iters, chunkLoopGo (stripL text) (findProtectedRanges (stripL text)) cfg tok
        ((stripL text).length + 1) 0 = some iters ∧
      (let base := (iters.map ChunkIter.emitted).filter (fun c => !c.isEmpty)
       cs = if cfg.minChunkSize > 0 ∧ base.length > 1 then
          mergeSmallChunks base cfg.minChunkSize cfg.chunkSize
        else base) := by
  simp only [chunkText] at h
  split at h
  · cases h; right; left; rfl
  · rename_i hnil
    split at h
    · cases h; exact Or.inl ⟨rfl, hnil⟩
    · split at h
      · cases h
      · rename_i iters hloop
        cases h
        exact Or.inr (Or.inr ⟨iters, hloop, rfl⟩)

/-- Claim C9, as stated, is false after the merge pass: on
`"aaaa\nbbbb\ncc"` with `target_size = 10`, `min_chunk_size = 5`, the two
loop chunks are fused with an inserted `" "`, giving `"aaaa\nbbbb cc"`,
which is not a contiguous substring of the (trimmed) source — the newline
between `b` and `c` was replaced. -/
theorem claim_C9_counterexample :
    chunkText c9text c9cfg zeroTok = some [c9merged] ∧
    ¬ (c9merged <:+: stripL c9text) := ⟨by decide, by decide⟩

/-- Claim C9 (amended): every string returned by `chunk_text` is non-empty
and equals its own trim (first conjunct, for every valid config); and when
`min_chunk_size = 0` — that is, when the merge pass never fuses chunks —
every returned string is also a contiguous substring of the trimmed source
text (second conjunct).  After the merge pass a returned chunk is a
space-join of loop chunks and need not be a substring. -/
theorem claim_C9 :
    (∀ (text : Text) (cfg : Config) (tok : Text → Option Nat) (cs : List Text),
      1 ≤ cfg.chunkSize → chunkText text cfg tok = some cs →
      ∀ c ∈ cs, c ≠ [] ∧ stripL c = c) ∧
    (∀ (text : Text) (cfg : Config) (tok : Text → Option Nat) (cs : List Text),
      1 ≤ cfg.chunkSize → cfg.minChunkSize = 0 → chunkText text cfg tok = some cs →
      ∀ c ∈ cs, c <:+: stripL text) := by
  have hbase : ∀ (text : Text) (cfg : Config) (tok : Text → Option Nat)
      (iters : List ChunkIter), 1 ≤ cfg.chunkSize →
      chunkLoopGo (stripL text) (findProtectedRanges (stripL text)) cfg tok
        ((stripL text).length + 1) 0 = some iters →
      ∀ c ∈ (iters.map ChunkIter.emitted).filter (fun c => !c.isEmpty),
        (c ≠ [] ∧ stripL c = c) ∧ c <:+: stripL text := by
    intro text cfg tok iters hcs hloop c hc
    rw [List.mem_filter] at hc
    obtain ⟨hc1, hc2⟩ := hc
    obtain ⟨it, hit, heq⟩ := List.mem_map.mp hc1
    obtain ⟨h1, -⟩ := chunkLoopGo_main hcs _ 0 iters hloop
    obtain ⟨hes, -, -⟩ := h1 it hit
    have hceq : c = stripL (slice (stripL text) it.cstart it.cstop) := by
      rw [← heq, hes]
    have hne : c ≠ [] := by
      intro he
      rw [he] at hc2
      simp at hc2
    refine ⟨⟨hne, by rw [hceq, stripL_idem]⟩, ?_⟩
    rw [hceq]
    exact subInfix_trans (stripL_sub _) (slice_sub _ _ _)
  constructor
  · intro text cfg tok cs hcs h c hc
    rcases chunkText_loop_chunks h with ⟨heq, hne⟩ | heq | ⟨iters, hloop, heq⟩
    · subst heq
      rw [List.mem_singleton] at hc
      subst hc
      exact ⟨hne, stripL_idem text⟩
    · subst heq
      cases hc
    · rw [heq] at hc
      split at hc
      · exact mergeSmallChunks_good
          (fun x hx => ((hbase text cfg tok iters hcs hloop x hx).1)) c hc
      · exact (hbase text cfg tok iters hcs hloop c hc).1
  · intro text cfg tok cs hcs hmin h c hc
    rcases chunkText_loop_chunks h with ⟨heq, -⟩ | heq | ⟨iters, hloop, heq⟩
    · subst heq
      rw [List.mem_singleton] at hc
      subst hc
      exact ⟨[], [], by simp⟩
    · subst heq
      cases hc
    · rw [heq] at hc
      rw [if_neg (by rw [hmin]; simp)] at hc
      exact (hbase text cfg tok iters hcs hloop c hc).2

theorem claim_C9_witness :
    (c9merged ≠ [] ∧ stripL c9merged = c9merged) ∧
    (c7text <:+: stripL c7text) :=
  ⟨claim_C9.1 c9text c9cfg zeroTok [c9merged] (by decide) (by decide) c9merged
    (by simp),
   claim_C9.2 c7text ⟨600, 0, false, 0⟩ zeroTok [c7text] (by decide) rfl
    (by decide) c7text (by simp)⟩

end Chunking
